import Mathlib

/-!
Verification development for the `my-epg` repository
(`scripts/merge_epg.py`).

The script is a linear pipeline: load an allow-list of `tvg-id`s from a
local playlist, download a fixed list of gzip-compressed XMLTV feeds,
scan each feed line by line extracting `<channel>` / `<programme>`
blocks, keep exactly the blocks whose key is in the allow-list, and
publish the merged document to `epg.xml` through a temporary file.

The embedding below is a direct shallow translation of the Python code:
strings are Lean `String`s, Python's substring operator, `str.split(sep, 1)`,
`str.strip()` and the `ATTR_RE` regex are modelled by executable functions
on character lists, the file system is modelled as a map from path to
optional content acted on by an explicit operation trace, and the SHA-256
comparison of the script is modelled as content equality (SHA-256 is
treated as collision-free).
-/

/-! ### Python string primitives -/

/-- Python `pre` is a prefix of `l` (character-list level). -/
def charsPref : List Char → List Char → Bool
  | [], _ => true
  | _ :: _, [] => false
  | c :: cs, d :: ds => c = d && charsPref cs ds

/-- Python `sub in l` (substring containment, character-list level). -/
def charsHas (sub : List Char) : List Char → Bool
  | [] => charsPref sub []
  | c :: t => charsPref sub (c :: t) || charsHas sub t

/-- Python `sub in s` on strings. -/
def strIn (sub s : String) : Bool := charsHas sub.toList s.toList

/-- Python `l.split(sep, 1)` at the first occurrence of `sep`:
`none` when `sep` does not occur, otherwise the parts before and after. -/
def splitOnceCh (sep : List Char) : List Char → Option (List Char × List Char)
  | [] => if charsPref sep [] then some ([], []) else none
  | c :: t =>
    if charsPref sep (c :: t) then some ([], (c :: t).drop sep.length)
    else (splitOnceCh sep t).map (fun p => (c :: p.1, p.2))

/-- Python `s.split(sep, 1)` on strings. -/
def splitOnce (sep s : String) : Option (String × String) :=
  (splitOnceCh sep.toList s.toList).map (fun p => (String.mk p.1, String.mk p.2))

/-- Python `s.strip()` (drop leading and trailing whitespace). -/
def pyStrip (s : String) : String :=
  String.mk (((s.toList.dropWhile Char.isWhitespace).reverse.dropWhile
    Char.isWhitespace).reverse)

/-- Python `s.startswith(pre)`. -/
def strStartsWith (pre s : String) : Bool := charsPref pre.toList s.toList

/-- Python `"".join(l)`. -/
def pyJoin : List String → String
  | [] => ""
  | a :: t => a ++ pyJoin t

/-- `line.split(marker, 1)[1].split('"', 1)[0]`: the text after the first
occurrence of `marker` up to the next double quote (the whole tail when no
quote follows).  Only ever called under a `marker in line` guard, so the
`none` branch is unreachable at call sites. -/
def extractAfter (marker line : String) : String :=
  match splitOnce marker line with
  | some p =>
    match splitOnce "\"" p.2 with
    | some q => q.1
    | none => p.2
  | none => line

/-! ### The `ATTR_RE` regex: `(\w[\w\-]*)="([^"]*)"`

`re.findall` scans left to right for non-overlapping matches.  Because
`[\w\-]` excludes `=` and `"`, the greedy key run is forced, so a match
attempt at a position either succeeds with the maximal key run or fails.
`\w` is modelled as ASCII alphanumeric or underscore. -/

def isWordChar (c : Char) : Bool := c.isAlphanum || c = '_'

def isKeyChar (c : Char) : Bool := isWordChar c || c = '-'

/-- One match attempt of `ATTR_RE` anchored at the head of `l`:
`some (key, value, rest)` on success. -/
def matchAttr (l : List Char) : Option (String × String × List Char) :=
  match l with
  | [] => none
  | c :: rest =>
    if isWordChar c then
      let run := rest.takeWhile isKeyChar
      let rest2 := rest.dropWhile isKeyChar
      match rest2 with
      | '=' :: '"' :: rest3 =>
        let v := rest3.takeWhile (fun d => !(d = '"'))
        let rest4 := rest3.dropWhile (fun d => !(d = '"'))
        match rest4 with
        | '"' :: rest5 => some (String.mk (c :: run), String.mk v, rest5)
        | _ => none
      | _ => none
    else none

/-- `ATTR_RE.findall`, fuelled by the input length (each step consumes at
least one character). -/
def findAttrsAux : Nat → List Char → List (String × String)
  | 0, _ => []
  | _ + 1, [] => []
  | n + 1, c :: rest =>
    match matchAttr (c :: rest) with
    | some (k, v, rest5) => (k, v) :: findAttrsAux n rest5
    | none => findAttrsAux n rest

/-- `ATTR_RE.findall(line)`. -/
def findAttrs (l : List Char) : List (String × String) :=
  findAttrsAux l.length l

/-- `dict(pairs).get(k)`: for duplicate keys the last pair wins, as in a
Python dict built from a pair list. -/
def dictGet (pairs : List (String × String)) (k : String) : Option String :=
  (pairs.reverse.find? (fun p => p.1 == k)).map (fun p => p.2)

/-! ### `load_allowed_tvg_ids` -/

/-- Python `a or b` on `Optional[str]` operands: `a` unless it is `None`
or the empty string. -/
def pyOr (a b : Option String) : Option String :=
  match a with
  | some s => if s = "" then b else some s
  | none => b

/-- The body of the `#EXTINF` branch of `load_allowed_tvg_ids`:
`attrs.get("tvg-id") or attrs.get("tvgid") or attrs.get("tvg_id")`,
then `if tvg_id: ... tvg_id.strip()`. -/
def selectTvg (line : String) : Option String :=
  let attrs := findAttrs line.toList
  let t := pyOr (pyOr (dictGet attrs "tvg-id") (dictGet attrs "tvgid"))
    (dictGet attrs "tvg_id")
  match t with
  | some s => if s = "" then none else some (pyStrip s)
  | none => none

inductive LoadErr where
  | fileMissing : LoadErr
  | noIds : LoadErr
deriving DecidableEq

/-- One iteration of the `for line in f` loop of `load_allowed_tvg_ids`. -/
def loadStep (acc : Finset String) (line : String) : Finset String :=
  if strStartsWith "#EXTINF" line then
    match selectTvg line with
    | some v => insert v acc
    | none => acc
  else acc

/-- `load_allowed_tvg_ids`: the playlist file is `none` when absent,
otherwise its list of lines (with their newlines, as Python iterates). -/
def load_allowed_tvg_ids (file : Option (List String)) :
    Except LoadErr (Finset String) :=
  match file with
  | none => Except.error LoadErr.fileMissing
  | some lines =>
    let allowed := lines.foldl loadStep ∅
    if allowed = ∅ then Except.error LoadErr.noIds else Except.ok allowed

/-! ### `iter_xmltv_inner_lines` -/

/-- The generator loop of `iter_xmltv_inner_lines`; the `Bool` is the
`in_tv` flag. -/
def innerAux : Bool → List String → List String
  | _, [] => []
  | false, l :: ls =>
    if strIn "<tv" l then
      match splitOnce ">" l with
      | some p =>
        if pyStrip p.2 = "" then innerAux true ls else p.2 :: innerAux true ls
      | none => innerAux true ls
    else innerAux false ls
  | true, l :: ls =>
    if strIn "</tv>" l then
      let before := match splitOnce "</tv>" l with
        | some p => p.1
        | none => l
      if pyStrip before = "" then [] else [before]
    else l :: innerAux true ls

/-- `iter_xmltv_inner_lines` on the decompressed feed text, given as the
list of its lines (each with its trailing newline, as Python yields). -/
def innerLines (lines : List String) : List String := innerAux false lines

/-! ### The scanner state of `main` (`buf` / `block_type` / ids / output) -/

inductive BType where
  | channel : BType
  | programme : BType
deriving DecidableEq

/-- The mutable scanning state of `main`: the accumulated block lines,
the current block type, the two extracted keys, and the list of block
texts written to the output file so far. -/
structure ScanState where
  buf : List String
  block_type : Option BType
  channel_id : Option String
  programme_channel : Option String
  out : List String
deriving DecidableEq

/-- Python `key in allowed` where `key : Optional[str]`: `None` is never
a member of a set of strings. -/
def memAllowed (allowed : Finset String) : Option String → Bool
  | some k => decide (k ∈ allowed)
  | none => false

/-- `flush_block`: on the early return (`not buf or not block_type`) only
`buf` and `block_type` are reset; otherwise the joined text is written
when the key of the block is in the allow-list and all four state fields
are reset. -/
def flush_block (allowed : Finset String) (s : ScanState) : ScanState :=
  if s.buf = [] ∨ s.block_type = none then
    { s with buf := [], block_type := none }
  else
    let text := pyJoin s.buf
    let keep := match s.block_type with
      | some BType.channel => memAllowed allowed s.channel_id
      | some BType.programme => memAllowed allowed s.programme_channel
      | none => false
    { buf := []
      block_type := none
      channel_id := none
      programme_channel := none
      out := s.out ++ (if keep then [text] else []) }

/-- One iteration of the inner `for line in iter_xmltv_inner_lines(gz)`
loop of `main`.  Outside a block, a line opens a block only on a
`"<channel "` / `"<programme "` marker (checked in that order) and the key
is extracted only when the `id="` / `channel="` marker is present;
inside a block, the line is appended first and the block is flushed when
it carries the matching closing marker.  A one-line block does not close
on its opening line (the opening branch `continue`s past the close
check). -/
def scanLine (allowed : Finset String) (s : ScanState) (line : String) :
    ScanState :=
  match s.block_type with
  | none =>
    if strIn "<channel " line then
      { s with
        block_type := some BType.channel
        buf := [line]
        channel_id := (if strIn "id=\"" line
          then some (extractAfter "id=\"" line) else s.channel_id) }
    else if strIn "<programme " line then
      { s with
        block_type := some BType.programme
        buf := [line]
        programme_channel := (if strIn "channel=\"" line
          then some (extractAfter "channel=\"" line) else s.programme_channel) }
    else s
  | some bt =>
    let s' := { s with buf := s.buf ++ [line] }
    if bt = BType.channel ∧ strIn "</channel>" line then flush_block allowed s'
    else if bt = BType.programme ∧ strIn "</programme>" line then
      flush_block allowed s'
    else s'

def initScan : ScanState := ⟨[], none, none, none, []⟩

/-- The block texts written by the scanning loop of `main` over the
concatenated inner lines of all feeds, including the final
`flush_block()` call. -/
def scanChunks (allowed : Finset String) (lines : List String) : List String :=
  (flush_block allowed (lines.foldl (scanLine allowed) initScan)).out

/-! ### The merged output document -/

def commentLine (ts : String) : String := "<!-- generated: " ++ ts ++ "Z -->\n"

def xmlDeclLine : String := "<?xml version=\"1.0\" encoding=\"UTF-8\"?>\n"

def tvOpenLine : String := "<tv generator-info-name=\"my-epg\">\n"

def tvCloseLine : String := "</tv>\n"

/-- The sequence of `out.write` calls of `main` building `epg.xml.tmp`:
the generation comment (`ts` models `datetime.utcnow().isoformat()`),
the XML declaration, the root opening tag, one chunk per kept block, and
the root closing tag. -/
def mergedChunks (allowed : Finset String) (feeds : List (List String))
    (ts : String) : List String :=
  [commentLine ts, xmlDeclLine, tvOpenLine] ++
    scanChunks allowed ((feeds.map innerLines).flatten) ++ [tvCloseLine]

/-! ### `download` -/

/-- Transient network errors (`HTTPError` / `URLError` / `TimeoutError`),
identified by an abstract code. -/
abbrev NetErr : Type := Nat

/-- A file-system operation performed by the script: truncating write,
append to an open file, removal, and `os.replace` (atomic rename). -/
inductive FsOp where
  | fwrite : String → String → FsOp
  | fappend : String → String → FsOp
  | fremove : String → FsOp
  | freplace : String → String → FsOp
deriving DecidableEq

/-- The retry loop of `download`: `att i` is the outcome of the i-th
attempt (1-based); the second component is the list of `time.sleep`
durations (`3 * attempt` after each failure); the third is the file
write performed on success.  On exhaustion the last error is raised
(`none` can only arise with a zero retry budget, which `main` never
uses). -/
def downloadAux (att : Nat → Except NetErr (List String)) (outPath : String) :
    Nat → Nat → Option NetErr →
      Except (Option NetErr) (List String) × List Nat × List FsOp
  | 0, _, last => (Except.error last, [], [])
  | k + 1, i, _ =>
    match att i with
    | Except.ok d => (Except.ok d, [], [FsOp.fwrite outPath (pyJoin d)])
    | Except.error e =>
      let r := downloadAux att outPath k (i + 1) (some e)
      (r.1, 3 * i :: r.2.1, r.2.2)

/-- `download(url, out_path, retries=5)`; the feed data is modelled by
its decompressed text lines. -/
def download (att : Nat → Except NetErr (List String)) (outPath : String)
    (retries : Nat := 5) :
    Except (Option NetErr) (List String) × List Nat × List FsOp :=
  downloadAux att outPath retries 1 none

/-! ### `main`: paths, constants, the file-system trace -/

def OUT_XML : String := "epg.xml"

def OUT_TMP : String := OUT_XML ++ ".tmp"

def TMP_DIR : String := ".tmp_epg"

def UA : String := "Mozilla/5.0 (GitHubActions EPG Merger)"

/-- The sixteen hard-coded feed URLs of the script. -/
def URLS : List String := [
  "https://epgshare01.online/epgshare01/epg_ripper_US2.xml.gz",
  "https://epgshare01.online/epgshare01/epg_ripper_US_SPORTS1.xml.gz",
  "https://epgshare01.online/epgshare01/epg_ripper_US_LOCALS1.xml.gz",
  "https://epgshare01.online/epgshare01/epg_ripper_UK1.xml.gz",
  "https://epgshare01.online/epgshare01/epg_ripper_CA2.xml.gz",
  "https://epgshare01.online/epgshare01/epg_ripper_AU1.xml.gz",
  "https://epgshare01.online/epgshare01/epg_ripper_FR1.xml.gz",
  "https://epgshare01.online/epgshare01/epg_ripper_DE1.xml.gz",
  "https://epgshare01.online/epgshare01/epg_ripper_ES1.xml.gz",
  "https://epgshare01.online/epgshare01/epg_ripper_PT1.xml.gz",
  "https://epgshare01.online/epgshare01/epg_ripper_IT1.xml.gz",
  "https://epgshare01.online/epgshare01/epg_ripper_NL1.xml.gz",
  "https://epgshare01.online/epgshare01/epg_ripper_BE2.xml.gz",
  "https://epgshare01.online/epgshare01/epg_ripper_CH1.xml.gz",
  "https://epgshare01.online/epgshare01/epg_ripper_NZ1.xml.gz",
  "https://epgshare01.online/epgshare01/epg_ripper_GR1.xml.gz"]

/-- `f"{i:02d}"` for the 1-based download ordinals used by `main`. -/
def pad2 (i : Nat) : String := if i < 10 then "0" ++ toString i else toString i

/-- `os.path.join(TMP_DIR, f"{i:02d}.xml.gz")`. -/
def gzPath (i : Nat) : String := TMP_DIR ++ "/" ++ pad2 i ++ ".xml.gz"

inductive RunErr where
  | playlistMissing : RunErr
  | noTvgIds : RunErr
  | downloadFailed : RunErr
  | tooLarge : RunErr
deriving DecidableEq

/-- The download loop of `main` over the remaining URLs, `i` being the
1-based ordinal of the next URL: the file writes performed so far and
either all feed texts in order or the error that aborted the run
(the uncaught exception re-raised by `download`). -/
def downloadAll (fetch : String → Nat → Except NetErr (List String)) :
    List String → Nat → List FsOp × Except RunErr (List (List String))
  | [], _ => ([], Except.ok [])
  | u :: rest, i =>
    match download (fetch u) (gzPath i) 5 with
    | (Except.ok feed, _, ops) =>
      let r := downloadAll fetch rest (i + 1)
      (ops ++ r.1, r.2.map (fun fs => feed :: fs))
    | (Except.error _, _, _) => ([], Except.error RunErr.downloadFailed)

/-- `os.path.getsize` of a text file written with UTF-8 encoding and
`newline="\n"`: the sum of the UTF-8 sizes of its characters. -/
def utf8Len (s : String) : Nat := (s.toList.map Char.utf8Size).sum

/-- `size_mb > 95` on the byte size: `95 * 1024 * 1024` bytes. -/
def MAX_BYTES : Nat := 95 * 1024 * 1024

/-- `main`, as a function of its four inputs: the playlist file (absent
or its lines), the network environment (per URL, per 1-based attempt,
the downloaded feed's decompressed lines or a transient error), the
current content of `epg.xml` (for `os.path.exists` and the SHA-256
comparison, modelled as content equality), and the generation timestamp
`datetime.utcnow().isoformat()`.  It returns the trace of file-system
operations performed and the outcome: `Except.ok ()` for exit status 0,
`Except.error` for an uncaught exception (non-zero exit). -/
def runMain (playlist : Option (List String))
    (fetch : String → Nat → Except NetErr (List String))
    (prev : Option String) (ts : String) :
    List FsOp × Except RunErr Unit :=
  match load_allowed_tvg_ids playlist with
  | Except.error LoadErr.fileMissing => ([], Except.error RunErr.playlistMissing)
  | Except.error LoadErr.noIds => ([], Except.error RunErr.noTvgIds)
  | Except.ok allowed =>
    match downloadAll fetch URLS 1 with
    | (dlOps, Except.error e) => (dlOps, Except.error e)
    | (dlOps, Except.ok feeds) =>
      let chunks := mergedChunks allowed feeds ts
      let content := pyJoin chunks
      let outOps := FsOp.fwrite OUT_TMP "" :: chunks.map (FsOp.fappend OUT_TMP)
      match prev with
      | some old =>
        if old = content then
          (dlOps ++ outOps ++ [FsOp.fremove OUT_TMP], Except.ok ())
        else if utf8Len content > MAX_BYTES then
          (dlOps ++ outOps ++ [FsOp.freplace OUT_TMP OUT_XML],
            Except.error RunErr.tooLarge)
        else
          (dlOps ++ outOps ++ [FsOp.freplace OUT_TMP OUT_XML], Except.ok ())
      | none =>
        if utf8Len content > MAX_BYTES then
          (dlOps ++ outOps ++ [FsOp.freplace OUT_TMP OUT_XML],
            Except.error RunErr.tooLarge)
        else
          (dlOps ++ outOps ++ [FsOp.freplace OUT_TMP OUT_XML], Except.ok ())

/-- The effect of one file-system operation on a file-system state
(a map from path to optional content). -/
def applyOp (fs : String → Option String) : FsOp → String → Option String
  | FsOp.fwrite p c => fun q => if q = p then some c else fs q
  | FsOp.fappend p c => fun q =>
      if q = p then some ((fs p).getD "" ++ c) else fs q
  | FsOp.fremove p => fun q => if q = p then none else fs q
  | FsOp.freplace src dst => fun q =>
      if q = dst then fs src else if q = src then none else fs q

/-- The file system at the start of a run: `epg.xml` holds `prev` (when
present) and nothing else exists. -/
def initFs (prev : Option String) : String → Option String :=
  fun p => if p = OUT_XML then prev else none

/-- The content of `epg.xml` after a trace of operations has run against
the initial file system. -/
def finalEpg (prev : Option String) (tr : List FsOp) : Option String :=
  (tr.foldl applyOp (initFs prev)) OUT_XML

deriving instance DecidableEq for Except

/-! ### Toolkit lemmas about the string primitives -/

theorem charsPref_extend {sub l : List Char} (t : List Char)
    (h : charsPref sub l = true) : charsPref sub (l ++ t) = true := by
  induction sub generalizing l with
  | nil => simp [charsPref]
  | cons c cs ih =>
    cases l with
    | nil => simp [charsPref] at h
    | cons d ds =>
      simp [charsPref] at h ⊢
      exact ⟨h.1, ih h.2⟩

theorem charsHas_of_pref {sub l : List Char} (h : charsPref sub l = true) :
    charsHas sub l = true := by
  cases l <;> simp [charsHas, h]

theorem charsHas_extend {sub l : List Char} (t : List Char)
    (h : charsHas sub l = true) : charsHas sub (l ++ t) = true := by
  induction l with
  | nil =>
    simp [charsHas] at h
    cases sub with
    | nil => exact charsHas_of_pref (by simp [charsPref])
    | cons c cs => simp [charsPref] at h
  | cons c cs ih =>
    simp [charsHas] at h ⊢
    cases h with
    | inl hp => exact Or.inl (charsPref_extend t hp)
    | inr hh => exact Or.inr (ih hh)

theorem toList_append (a b : String) : (a ++ b).toList = a.toList ++ b.toList := by
  simp [String.toList]

theorem strIn_extend {sub a : String} (b : String) (h : strIn sub a = true) :
    strIn sub (a ++ b) = true := by
  unfold strIn at h ⊢
  rw [toList_append]
  exact charsHas_extend _ h

theorem pyJoin_cons (a : String) (t : List String) :
    pyJoin (a :: t) = a ++ pyJoin t := rfl

theorem pyJoin_append (l1 l2 : List String) :
    pyJoin (l1 ++ l2) = pyJoin l1 ++ pyJoin l2 := by
  induction l1 with
  | nil => simp [pyJoin]
  | cons a t ih => simp [pyJoin, ih, String.append_assoc]

theorem utf8Len_append (a b : String) :
    utf8Len (a ++ b) = utf8Len a + utf8Len b := by
  simp [utf8Len, String.toList]

theorem utf8Len_pyJoin (l : List String) :
    utf8Len (pyJoin l) = (l.map utf8Len).sum := by
  induction l with
  | nil => simp [pyJoin, utf8Len]
  | cons a t ih => simp [pyJoin, utf8Len_append, ih]

theorem ne_of_utf8Len_ne {a b : String} (h : utf8Len a ≠ utf8Len b) :
    a ≠ b := fun e => h (congrArg utf8Len e)

theorem strStartsWith_append (pre a b : String)
    (h : strStartsWith pre a = true) : strStartsWith pre (a ++ b) = true := by
  unfold strStartsWith at h ⊢
  rw [toList_append]
  exact charsPref_extend _ h

theorem commentLine_startsWith (ts : String) :
    strStartsWith "<!--" (commentLine ts) = true := by
  unfold commentLine
  exact strStartsWith_append _ _ _ (strStartsWith_append _ _ _ (by decide))

theorem commentLine_ne_tvOpen (ts : String) : commentLine ts ≠ tvOpenLine := by
  intro h
  have h2 := commentLine_startsWith ts
  rw [h] at h2
  exact absurd h2 (by decide)

theorem commentLine_ne_tvClose (ts : String) : commentLine ts ≠ tvCloseLine := by
  intro h
  have h2 := commentLine_startsWith ts
  rw [h] at h2
  exact absurd h2 (by decide)

theorem gzPath_startsWith (i : Nat) : strStartsWith "." (gzPath i) = true := by
  unfold gzPath TMP_DIR
  exact strStartsWith_append _ _ _ (strStartsWith_append _ _ _ (by decide))

theorem gzPath_ne_out (i : Nat) : gzPath i ≠ OUT_XML := by
  intro h
  have h2 := gzPath_startsWith i
  rw [h] at h2
  exact absurd h2 (by decide)

theorem gzPath_ne_tmp (i : Nat) : gzPath i ≠ OUT_TMP := by
  intro h
  have h2 := gzPath_startsWith i
  rw [h] at h2
  exact absurd h2 (by decide)

/-! ### Specification-level view of the scanner -/

/-- A scanned feed block: its type, its extracted key, and its
accumulated lines (a block left open at the end of the input has no
closing line). -/
structure XBlock where
  btype : BType
  key : Option String
  textLines : List String
deriving DecidableEq

def closeMark : BType → String
  | BType.channel => "</channel>"
  | BType.programme => "</programme>"

/-- The key extracted from the opening line of a block. -/
def openKey : BType → String → Option String
  | BType.channel, l =>
    if strIn "id=\"" l then some (extractAfter "id=\"" l) else none
  | BType.programme, l =>
    if strIn "channel=\"" l then some (extractAfter "channel=\"" l) else none

/-- All blocks scanned from the inner lines (the pending open block at
the end of the input included): the specification-level restatement of
the scanning loop, to be compared with the translated code. -/
def specScan :
    Option (BType × Option String × List String) → List String → List XBlock
  | none, [] => []
  | some st, [] => [⟨st.1, st.2.1, st.2.2⟩]
  | none, l :: ls =>
    if strIn "<channel " l then
      specScan (some (BType.channel, openKey BType.channel l, [l])) ls
    else if strIn "<programme " l then
      specScan (some (BType.programme, openKey BType.programme l, [l])) ls
    else specScan none ls
  | some (bt, k, acc), l :: ls =>
    if strIn (closeMark bt) l then ⟨bt, k, acc ++ [l]⟩ :: specScan none ls
    else specScan (some (bt, k, acc ++ [l])) ls

/-- A block survives the filter when its key is in the allow-list. -/
def keptB (allowed : Finset String) (b : XBlock) : Bool :=
  memAllowed allowed b.key

def blockText (b : XBlock) : String := pyJoin b.textLines

/-- The key field the scanner consults for a block of the given type. -/
def stKey (bt : BType) (s : ScanState) : Option String :=
  match bt with
  | BType.channel => s.channel_id
  | BType.programme => s.programme_channel

/-- Correspondence between the scanner state and the specification-level
open-block state. -/
def relState (s : ScanState) :
    Option (BType × Option String × List String) → Prop
  | none => s.block_type = none ∧ s.buf = [] ∧ s.channel_id = none ∧
      s.programme_channel = none
  | some (bt, k, acc) => s.block_type = some bt ∧ s.buf = acc ∧ acc ≠ [] ∧
      stKey bt s = k

theorem scan_refine (allowed : Finset String) :
    ∀ (lines : List String) (s : ScanState)
      (o : Option (BType × Option String × List String)),
      relState s o →
      (flush_block allowed (lines.foldl (scanLine allowed) s)).out =
        s.out ++ ((specScan o lines).filter (keptB allowed)).map blockText := by
  intro lines
  induction lines with
  | nil =>
    intro s o hrel
    cases o with
    | none =>
      obtain ⟨hb, hbuf, _, _⟩ := hrel
      simp [specScan, flush_block, hb, hbuf]
    | some st =>
      obtain ⟨bt, k, acc⟩ := st
      obtain ⟨hb, hbuf, hne, hkey⟩ := hrel
      have hflush : flush_block allowed s =
          ⟨[], none, none, none,
            s.out ++ (if memAllowed allowed k then [pyJoin acc] else [])⟩ := by
        cases bt with
        | channel =>
          simp only [stKey] at hkey
          simp [flush_block, hb, hbuf, hne, hkey]
        | programme =>
          simp only [stKey] at hkey
          simp [flush_block, hb, hbuf, hne, hkey]
      rw [List.foldl_nil, hflush]
      by_cases hm : memAllowed allowed k = true <;>
        simp [specScan, List.filter_cons, keptB, blockText, hm]
  | cons l ls ih =>
    intro s o hrel
    rw [List.foldl_cons]
    cases o with
    | none =>
      obtain ⟨hb, hbuf, hcid, hpid⟩ := hrel
      by_cases hc : strIn "<channel " l = true
      · have hstep : scanLine allowed s l =
            ⟨[l], some BType.channel, openKey BType.channel l,
              s.programme_channel, s.out⟩ := by
          simp [scanLine, hb, hc, hcid, openKey]
        rw [hstep, show specScan none (l :: ls) =
          specScan (some (BType.channel, openKey BType.channel l, [l])) ls by
            simp [specScan, hc]]
        exact ih _ _ ⟨rfl, rfl, by simp, rfl⟩
      · by_cases hp : strIn "<programme " l = true
        · have hstep : scanLine allowed s l =
              ⟨[l], some BType.programme, s.channel_id,
                openKey BType.programme l, s.out⟩ := by
            simp [scanLine, hb, hc, hp, hpid, openKey]
          rw [hstep, show specScan none (l :: ls) =
            specScan (some (BType.programme, openKey BType.programme l, [l]))
              ls by simp [specScan, hc, hp]]
          exact ih _ _ ⟨rfl, rfl, by simp, rfl⟩
        · have hstep : scanLine allowed s l = s := by
            simp [scanLine, hb, hc, hp]
          rw [hstep, show specScan none (l :: ls) = specScan none ls by
            simp [specScan, hc, hp]]
          exact ih _ _ ⟨hb, hbuf, hcid, hpid⟩
    | some st =>
      obtain ⟨bt, k, acc⟩ := st
      obtain ⟨hb, hbuf, hne, hkey⟩ := hrel
      by_cases hcl : strIn (closeMark bt) l = true
      · have hstep : scanLine allowed s l =
            flush_block allowed
              ⟨s.buf ++ [l], s.block_type, s.channel_id,
                s.programme_channel, s.out⟩ := by
          cases bt with
          | channel =>
            simp only [closeMark] at hcl
            simp [scanLine, hb, hcl]
          | programme =>
            simp only [closeMark] at hcl
            simp [scanLine, hb, hcl]
        have hflush : flush_block allowed
            ⟨s.buf ++ [l], s.block_type, s.channel_id,
              s.programme_channel, s.out⟩ =
            ⟨[], none, none, none,
              s.out ++ (if memAllowed allowed k then
                [pyJoin (acc ++ [l])] else [])⟩ := by
          cases bt with
          | channel =>
            simp only [stKey] at hkey
            simp [flush_block, hb, hbuf, hkey]
          | programme =>
            simp only [stKey] at hkey
            simp [flush_block, hb, hbuf, hkey]
        rw [hstep, hflush, show specScan (some (bt, k, acc)) (l :: ls) =
          ⟨bt, k, acc ++ [l]⟩ :: specScan none ls by simp [specScan, hcl]]
        rw [ih ⟨[], none, none, none,
          s.out ++ (if memAllowed allowed k then [pyJoin (acc ++ [l])] else [])⟩
          none ⟨rfl, rfl, rfl, rfl⟩]
        by_cases hm : memAllowed allowed k = true <;>
          simp [List.filter_cons, keptB, blockText, hm]
      · have hstep : scanLine allowed s l =
            ⟨s.buf ++ [l], s.block_type, s.channel_id,
              s.programme_channel, s.out⟩ := by
          cases bt with
          | channel =>
            simp only [closeMark] at hcl
            simp [scanLine, hb, hcl]
          | programme =>
            simp only [closeMark] at hcl
            simp [scanLine, hb, hcl]
        rw [hstep, show specScan (some (bt, k, acc)) (l :: ls) =
          specScan (some (bt, k, acc ++ [l])) ls by simp [specScan, hcl]]
        refine ih _ _ ⟨hb, by simp [hbuf], by simp, ?_⟩
        cases bt <;> simpa [stKey] using hkey

/-- The written block chunks are exactly the texts of the scanned blocks
whose key is in the allow-list, in scan order. -/
theorem scanChunks_spec (allowed : Finset String) (lines : List String) :
    scanChunks allowed lines =
      ((specScan none lines).filter (keptB allowed)).map blockText := by
  have h := scan_refine allowed lines initScan none ⟨rfl, rfl, rfl, rfl⟩
  simpa [scanChunks, initScan] using h

/-- Every scanned block's line list starts with its opening line, which
carries the `"<channel "` or `"<programme "` marker. -/
theorem specScan_head_marker :
    ∀ (lines : List String) (o : Option (BType × Option String × List String)),
      (∀ bt k acc, o = some (bt, k, acc) → ∃ f r, acc = f :: r ∧
        (strIn "<channel " f = true ∨ strIn "<programme " f = true)) →
      ∀ b ∈ specScan o lines, ∃ f r, b.textLines = f :: r ∧
        (strIn "<channel " f = true ∨ strIn "<programme " f = true) := by
  intro lines
  induction lines with
  | nil =>
    intro o ho b hb
    cases o with
    | none => simp [specScan] at hb
    | some st =>
      obtain ⟨bt, k, acc⟩ := st
      simp [specScan] at hb
      subst hb
      exact ho bt k acc rfl
  | cons l ls ih =>
    intro o ho b hb
    cases o with
    | none =>
      by_cases hc : strIn "<channel " l = true
      · rw [show specScan none (l :: ls) =
          specScan (some (BType.channel, openKey BType.channel l, [l])) ls by
            simp [specScan, hc]] at hb
        refine ih _ ?_ b hb
        intro bt k acc h
        obtain ⟨rfl, rfl, rfl⟩ := by
          simpa using h
        exact ⟨l, [], rfl, Or.inl hc⟩
      · by_cases hp : strIn "<programme " l = true
        · rw [show specScan none (l :: ls) =
            specScan (some (BType.programme, openKey BType.programme l, [l]))
              ls by simp [specScan, hc, hp]] at hb
          refine ih _ ?_ b hb
          intro bt k acc h
          obtain ⟨rfl, rfl, rfl⟩ := by
            simpa using h
          exact ⟨l, [], rfl, Or.inr hp⟩
        · rw [show specScan none (l :: ls) = specScan none ls by
            simp [specScan, hc, hp]] at hb
          exact ih _ (by simp) b hb
    | some st =>
      obtain ⟨bt, k, acc⟩ := st
      obtain ⟨f, r, hacc, hmark⟩ := ho bt k acc rfl
      by_cases hcl : strIn (closeMark bt) l = true
      · rw [show specScan (some (bt, k, acc)) (l :: ls) =
          ⟨bt, k, acc ++ [l]⟩ :: specScan none ls by simp [specScan, hcl]] at hb
        rcases List.mem_cons.1 hb with rfl | hb2
        · exact ⟨f, r ++ [l], by simp [hacc], hmark⟩
        · exact ih _ (by simp) b hb2
      · rw [show specScan (some (bt, k, acc)) (l :: ls) =
          specScan (some (bt, k, acc ++ [l])) ls by simp [specScan, hcl]] at hb
        refine ih _ ?_ b hb
        intro bt' k' acc' h
        obtain ⟨rfl, rfl, rfl⟩ := by
          simpa using h
        exact ⟨f, r ++ [l], by simp [hacc], hmark⟩

/-- Every written block chunk carries a block-opening marker. -/
theorem scanChunks_marker (allowed : Finset String) (lines : List String) :
    ∀ c ∈ scanChunks allowed lines,
      strIn "<channel " c = true ∨ strIn "<programme " c = true := by
  intro c hc
  rw [scanChunks_spec] at hc
  obtain ⟨b, hbf, rfl⟩ := List.mem_map.1 hc
  have hbmem := (List.mem_filter.1 hbf).1
  obtain ⟨f, r, hft, hmark⟩ :=
    specScan_head_marker lines none (by simp) b hbmem
  have : blockText b = f ++ pyJoin r := by rw [blockText, hft, pyJoin_cons]
  rw [this]
  rcases hmark with h | h
  · exact Or.inl (strIn_extend _ h)
  · exact Or.inr (strIn_extend _ h)

/-- A string carrying a block-opening marker is neither root tag line. -/
theorem chunk_ne_root {c : String}
    (h : strIn "<channel " c = true ∨ strIn "<programme " c = true) :
    c ≠ tvOpenLine ∧ c ≠ tvCloseLine := by
  constructor <;> intro e <;> rw [e] at h <;>
    rcases h with h | h <;> exact absurd h (by decide)

/-- C3: the block chunks written between the root tags are exactly the
texts of the scanned blocks whose key is in the allow-list, each the
unmodified concatenation of its accumulated lines, in scan order; a
block whose key is absent from the allow-list contributes no chunk.  In
particular every kept block's full text occurs in the output write
sequence. -/
theorem C3_filter_exact (allowed : Finset String) (feeds : List (List String))
    (ts : String) :
    mergedChunks allowed feeds ts =
      [commentLine ts, xmlDeclLine, tvOpenLine] ++
        ((specScan none ((feeds.map innerLines).flatten)).filter
          (keptB allowed)).map blockText ++ [tvCloseLine] ∧
    ∀ b ∈ specScan none ((feeds.map innerLines).flatten),
      keptB allowed b = true → blockText b ∈ mergedChunks allowed feeds ts := by
  constructor
  · rw [mergedChunks, scanChunks_spec]
  · intro b hb hk
    rw [mergedChunks]
    refine List.mem_append.2 (Or.inl (List.mem_append.2 (Or.inr ?_)))
    rw [scanChunks_spec]
    exact List.mem_map.2 ⟨b, List.mem_filter.2 ⟨hb, hk⟩, rfl⟩

/-! ### File-system trace lemmas -/

/-- The operation reads or writes the path at all. -/
def touches (op : FsOp) (p : String) : Bool :=
  match op with
  | FsOp.fwrite q _ => q = p
  | FsOp.fappend q _ => q = p
  | FsOp.fremove q => q = p
  | FsOp.freplace src dst => src = p || dst = p

/-- The operation writes the path directly (a rename does not). -/
def directTouch (op : FsOp) (p : String) : Bool :=
  match op with
  | FsOp.fwrite q _ => q = p
  | FsOp.fappend q _ => q = p
  | FsOp.fremove q => q = p
  | FsOp.freplace _ _ => false

def isRepl (op : FsOp) : Bool :=
  match op with
  | FsOp.freplace _ _ => true
  | _ => false

theorem applyOp_not_touches {op : FsOp} {p : String}
    (fs : String → Option String) (h : touches op p = false) :
    applyOp fs op p = fs p := by
  cases op with
  | fwrite q c =>
    simp [touches] at h
    simp [applyOp, Ne.symm h]
  | fappend q c =>
    simp [touches] at h
    simp [applyOp, Ne.symm h]
  | fremove q =>
    simp [touches] at h
    simp [applyOp, Ne.symm h]
  | freplace src dst =>
    simp [touches] at h
    simp [applyOp, Ne.symm h.1, Ne.symm h.2]

theorem foldl_applyOp_not_touches {p : String} :
    ∀ (ops : List FsOp) (fs : String → Option String),
      (∀ op ∈ ops, touches op p = false) →
      (ops.foldl applyOp fs) p = fs p := by
  intro ops
  induction ops with
  | nil => intro fs _; rfl
  | cons op t ih =>
    intro fs h
    rw [List.foldl_cons, ih _ (fun o ho => h o (List.mem_cons_of_mem _ ho)),
      applyOp_not_touches fs (h op (List.mem_cons_self _ _))]

theorem foldl_appends_out :
    ∀ (chunks : List String) (fs : String → Option String) (acc : String),
      fs OUT_TMP = some acc →
      ((chunks.map (FsOp.fappend OUT_TMP)).foldl applyOp fs) OUT_TMP =
        some (acc ++ pyJoin chunks) := by
  intro chunks
  induction chunks with
  | nil =>
    intro fs acc h
    simpa [pyJoin] using h
  | cons c t ih =>
    intro fs acc h
    rw [List.map_cons, List.foldl_cons,
      ih _ (acc ++ c) (by simp [applyOp, h]), pyJoin_cons,
      String.append_assoc]

theorem downloadAux_ops (att : Nat → Except NetErr (List String)) (p : String) :
    ∀ (k i : Nat) (last : Option NetErr),
      (downloadAux att p k i last).2.2 = [] ∨
        ∃ c, (downloadAux att p k i last).2.2 = [FsOp.fwrite p c] := by
  intro k
  induction k with
  | zero => intro i last; exact Or.inl rfl
  | succ k ih =>
    intro i last
    by_cases h : ∃ d, att i = Except.ok d
    · obtain ⟨d, hd⟩ := h
      exact Or.inr ⟨pyJoin d, by simp [downloadAux, hd]⟩
    · obtain ⟨e, he⟩ : ∃ e, att i = Except.error e := by
        cases hai : att i with
        | ok d => exact absurd ⟨d, hai⟩ h
        | error e => exact ⟨e, rfl⟩
      have := ih (i + 1) (some e)
      simpa [downloadAux, he] using this

theorem downloadAll_ops (fetch : String → Nat → Except NetErr (List String)) :
    ∀ (urls : List String) (i : Nat),
      ∀ op ∈ (downloadAll fetch urls i).1, ∃ j c, op = FsOp.fwrite (gzPath j) c := by
  intro urls
  induction urls with
  | nil => intro i op hop; simp [downloadAll] at hop
  | cons u rest ih =>
    intro i op hop
    rcases hdl : download (fetch u) (gzPath i) 5 with ⟨res, sl, ops⟩
    cases res with
    | ok feed =>
      rw [downloadAll] at hop
      rw [hdl] at hop
      simp only [List.mem_append] at hop
      rcases hop with hop | hop
      · rcases downloadAux_ops (fetch u) (gzPath i) 5 1 none with h0 | ⟨c, h0⟩
        · rw [show downloadAux (fetch u) (gzPath i) 5 1 none =
            (Except.ok feed, sl, ops) from hdl] at h0
          simp only at h0
          simp [h0] at hop
        · rw [show downloadAux (fetch u) (gzPath i) 5 1 none =
            (Except.ok feed, sl, ops) from hdl] at h0
          simp only at h0
          rw [h0] at hop
          simp at hop
          exact ⟨i, c, hop⟩
      · exact ih (i + 1) op hop
    | error e =>
      rw [downloadAll] at hop
      rw [hdl] at hop
      simp at hop

/-! ### `runMain` branch lemmas -/

theorem runMain_load_missing (fetch : String → Nat → Except NetErr (List String))
    (prev : Option String) (ts : String) :
    runMain none fetch prev ts = ([], Except.error RunErr.playlistMissing) := by
  simp [runMain, load_allowed_tvg_ids]

theorem runMain_load_empty (lines : List String)
    (fetch : String → Nat → Except NetErr (List String))
    (prev : Option String) (ts : String)
    (h : lines.foldl loadStep ∅ = (∅ : Finset String)) :
    runMain (some lines) fetch prev ts = ([], Except.error RunErr.noTvgIds) := by
  simp [runMain, load_allowed_tvg_ids, h]

theorem runMain_dl_fail (pl : Option (List String))
    (fetch : String → Nat → Except NetErr (List String))
    (prev : Option String) (ts : String) (allowed : Finset String) (e : RunErr)
    (hl : load_allowed_tvg_ids pl = Except.ok allowed)
    (hd : (downloadAll fetch URLS 1).2 = Except.error e) :
    runMain pl fetch prev ts = ((downloadAll fetch URLS 1).1, Except.error e) := by
  rcases hDL : downloadAll fetch URLS 1 with ⟨ops, r⟩
  rw [hDL] at hd
  simp only at hd
  subst hd
  simp [runMain, hl, hDL]

theorem runMain_noop (pl : Option (List String))
    (fetch : String → Nat → Except NetErr (List String))
    (ts : String) (allowed : Finset String) (feeds : List (List String))
    (hl : load_allowed_tvg_ids pl = Except.ok allowed)
    (hd : (downloadAll fetch URLS 1).2 = Except.ok feeds) :
    runMain pl fetch (some (pyJoin (mergedChunks allowed feeds ts))) ts =
      ((downloadAll fetch URLS 1).1 ++
        (FsOp.fwrite OUT_TMP "" ::
          (mergedChunks allowed feeds ts).map (FsOp.fappend OUT_TMP)) ++
        [FsOp.fremove OUT_TMP], Except.ok ()) := by
  rcases hDL : downloadAll fetch URLS 1 with ⟨ops, r⟩
  rw [hDL] at hd
  simp only at hd
  subst hd
  simp [runMain, hl, hDL]

theorem pair_ite {α β : Type} (c : Prop) [Decidable c] (a : α) (x y : β) :
    (if c then (a, x) else (a, y)) = (a, if c then x else y) := by
  split <;> rfl

theorem runMain_publish (pl : Option (List String))
    (fetch : String → Nat → Except NetErr (List String))
    (prev : Option String) (ts : String) (allowed : Finset String)
    (feeds : List (List String))
    (hl : load_allowed_tvg_ids pl = Except.ok allowed)
    (hd : (downloadAll fetch URLS 1).2 = Except.ok feeds)
    (hprev : prev ≠ some (pyJoin (mergedChunks allowed feeds ts))) :
    runMain pl fetch prev ts =
      ((downloadAll fetch URLS 1).1 ++
        (FsOp.fwrite OUT_TMP "" ::
          (mergedChunks allowed feeds ts).map (FsOp.fappend OUT_TMP)) ++
        [FsOp.freplace OUT_TMP OUT_XML],
        if utf8Len (pyJoin (mergedChunks allowed feeds ts)) > MAX_BYTES then
          Except.error RunErr.tooLarge
        else Except.ok ()) := by
  rcases hDL : downloadAll fetch URLS 1 with ⟨ops, r⟩
  rw [hDL] at hd
  simp only at hd
  subst hd
  cases prev with
  | none =>
    simp [runMain, hl, hDL]
    exact pair_ite _ _ _ _
  | some old =>
    have hne : ¬ old = pyJoin (mergedChunks allowed feeds ts) := by
      intro h
      exact hprev (by rw [h])
    simp [runMain, hl, hDL, hne]
    exact pair_ite _ _ _ _

/-! ### `finalEpg` on the trace shapes -/

theorem finalEpg_gz_only (prev : Option String) (ops : List FsOp)
    (h : ∀ op ∈ ops, ∃ j c, op = FsOp.fwrite (gzPath j) c) :
    finalEpg prev ops = prev := by
  unfold finalEpg
  rw [foldl_applyOp_not_touches ops (initFs prev) ?_]
  · simp [initFs]
  · intro op hop
    obtain ⟨j, c, rfl⟩ := h op hop
    simp [touches, gzPath_ne_out j]

theorem trace_not_touches_out (dlOps : List FsOp) (chunks : List String)
    (hdl : ∀ op ∈ dlOps, ∃ j c, op = FsOp.fwrite (gzPath j) c) :
    ∀ op ∈ dlOps ++ (FsOp.fwrite OUT_TMP "" ::
        chunks.map (FsOp.fappend OUT_TMP)),
      touches op OUT_XML = false := by
  intro op hop
  rcases List.mem_append.1 hop with hop | hop
  · obtain ⟨j, c, rfl⟩ := hdl op hop
    simp [touches, gzPath_ne_out j]
  · rcases List.mem_cons.1 hop with rfl | hop
    · simp [touches, OUT_TMP, OUT_XML]
    · obtain ⟨c, _, rfl⟩ := List.mem_map.1 hop
      simp [touches, OUT_TMP, OUT_XML]

theorem finalEpg_noop_trace (prev : Option String) (dlOps : List FsOp)
    (chunks : List String)
    (hdl : ∀ op ∈ dlOps, ∃ j c, op = FsOp.fwrite (gzPath j) c) :
    finalEpg prev (dlOps ++ (FsOp.fwrite OUT_TMP "" ::
      chunks.map (FsOp.fappend OUT_TMP)) ++ [FsOp.fremove OUT_TMP]) = prev := by
  unfold finalEpg
  rw [foldl_applyOp_not_touches _ (initFs prev) ?_]
  · simp [initFs]
  · intro op hop
    rw [show dlOps ++ (FsOp.fwrite OUT_TMP "" ::
        chunks.map (FsOp.fappend OUT_TMP)) ++ [FsOp.fremove OUT_TMP] =
      (dlOps ++ (FsOp.fwrite OUT_TMP "" ::
        chunks.map (FsOp.fappend OUT_TMP))) ++ [FsOp.fremove OUT_TMP] by
        simp] at hop
    rcases List.mem_append.1 hop with hop | hop
    · exact trace_not_touches_out dlOps chunks hdl op hop
    · simp at hop
      subst hop
      simp [touches, OUT_TMP, OUT_XML]

theorem tmp_after_build (prev : Option String) (dlOps : List FsOp)
    (chunks : List String) :
    ((dlOps ++ (FsOp.fwrite OUT_TMP "" ::
      chunks.map (FsOp.fappend OUT_TMP))).foldl applyOp (initFs prev))
        OUT_TMP = some (pyJoin chunks) := by
  rw [List.foldl_append, List.foldl_cons]
  rw [foldl_appends_out chunks _ "" (by simp [applyOp])]
  simp

theorem finalEpg_publish_trace (prev : Option String) (dlOps : List FsOp)
    (chunks : List String) :
    finalEpg prev (dlOps ++ (FsOp.fwrite OUT_TMP "" ::
      chunks.map (FsOp.fappend OUT_TMP)) ++ [FsOp.freplace OUT_TMP OUT_XML]) =
      some (pyJoin chunks) := by
  unfold finalEpg
  rw [show dlOps ++ (FsOp.fwrite OUT_TMP "" ::
      chunks.map (FsOp.fappend OUT_TMP)) ++ [FsOp.freplace OUT_TMP OUT_XML] =
    (dlOps ++ (FsOp.fwrite OUT_TMP "" ::
      chunks.map (FsOp.fappend OUT_TMP))) ++ [FsOp.freplace OUT_TMP OUT_XML] by
      simp]
  rw [List.foldl_append]
  simp only [List.foldl_cons, List.foldl_nil]
  rw [show ∀ fs : String → Option String,
      applyOp fs (FsOp.freplace OUT_TMP OUT_XML) OUT_XML = fs OUT_TMP from
    fun fs => by simp [applyOp]]
  exact tmp_after_build prev dlOps chunks

/-! ### Trace shape of a run -/

/-- The download phase writes only `.tmp_epg/NN.xml.gz` files. -/
def dlShape (ops : List FsOp) : Prop :=
  ∀ op ∈ ops, ∃ j c, op = FsOp.fwrite (gzPath j) c

/-- Every run's trace is either the download writes alone (aborted run)
or the download writes, the temporary-file construction, and one final
commit operation (remove on no-op, rename on publish). -/
theorem runMain_trace_shape (pl : Option (List String))
    (fetch : String → Nat → Except NetErr (List String))
    (prev : Option String) (ts : String) :
    (∃ dlOps, (runMain pl fetch prev ts).1 = dlOps ∧ dlShape dlOps) ∨
    (∃ (dlOps : List FsOp) (chunks : List String) (fin : FsOp),
      (runMain pl fetch prev ts).1 =
        dlOps ++ (FsOp.fwrite OUT_TMP "" ::
          chunks.map (FsOp.fappend OUT_TMP)) ++ [fin] ∧
      dlShape dlOps ∧
      (fin = FsOp.fremove OUT_TMP ∨ fin = FsOp.freplace OUT_TMP OUT_XML)) := by
  cases pl with
  | none =>
    exact Or.inl ⟨[], by rw [runMain_load_missing], by intro op h; simp at h⟩
  | some lines =>
    by_cases hld : lines.foldl loadStep ∅ = (∅ : Finset String)
    · exact Or.inl ⟨[], by rw [runMain_load_empty _ _ _ _ hld],
        by intro op h; simp at h⟩
    · have hl : load_allowed_tvg_ids (some lines) =
          Except.ok (lines.foldl loadStep ∅) := by
        simp [load_allowed_tvg_ids, hld]
      have hshape : dlShape (downloadAll fetch URLS 1).1 :=
        downloadAll_ops fetch URLS 1
      rcases hDL : (downloadAll fetch URLS 1).2 with e | feeds
      · exact Or.inl ⟨(downloadAll fetch URLS 1).1,
          by rw [runMain_dl_fail _ _ _ _ _ _ hl hDL], hshape⟩
      · set allowed := lines.foldl loadStep ∅ with hA
        by_cases hp : prev = some (pyJoin (mergedChunks allowed feeds ts))
        · refine Or.inr ⟨(downloadAll fetch URLS 1).1,
            mergedChunks allowed feeds ts, FsOp.fremove OUT_TMP, ?_, hshape,
            Or.inl rfl⟩
          rw [hp, runMain_noop _ _ _ _ _ hl hDL]
        · refine Or.inr ⟨(downloadAll fetch URLS 1).1,
            mergedChunks allowed feeds ts, FsOp.freplace OUT_TMP OUT_XML, ?_,
            hshape, Or.inr rfl⟩
          rw [runMain_publish _ _ _ _ _ _ hl hDL hp]

/-- Case analysis on one operation of a run's trace. -/
theorem runMain_trace_elems (pl : Option (List String))
    (fetch : String → Nat → Except NetErr (List String))
    (prev : Option String) (ts : String) :
    ∀ op ∈ (runMain pl fetch prev ts).1,
      (∃ j c, op = FsOp.fwrite (gzPath j) c) ∨
      (∃ c, op = FsOp.fwrite OUT_TMP c) ∨
      (∃ c, op = FsOp.fappend OUT_TMP c) ∨
      op = FsOp.fremove OUT_TMP ∨ op = FsOp.freplace OUT_TMP OUT_XML := by
  intro op hop
  rcases runMain_trace_shape pl fetch prev ts with
    ⟨dlOps, heq, hsh⟩ | ⟨dlOps, chunks, fin, heq, hsh, hfin⟩
  · rw [heq] at hop
    obtain ⟨j, c, rfl⟩ := hsh op hop
    exact Or.inl ⟨j, c, rfl⟩
  · rw [heq] at hop
    rcases List.mem_append.1 hop with hop | hop
    · rcases List.mem_append.1 hop with hop | hop
      · obtain ⟨j, c, rfl⟩ := hsh op hop
        exact Or.inl ⟨j, c, rfl⟩
      · rcases List.mem_cons.1 hop with rfl | hop
        · exact Or.inr (Or.inl ⟨"", rfl⟩)
        · obtain ⟨c, _, rfl⟩ := List.mem_map.1 hop
          exact Or.inr (Or.inr (Or.inl ⟨c, rfl⟩))
    · simp at hop
      subst hop
      rcases hfin with rfl | rfl
      · exact Or.inr (Or.inr (Or.inr (Or.inl rfl)))
      · exact Or.inr (Or.inr (Or.inr (Or.inr rfl)))

/-- Non-rename trace operations never touch `epg.xml`. -/
theorem runMain_nonrepl_not_touches (pl : Option (List String))
    (fetch : String → Nat → Except NetErr (List String))
    (prev : Option String) (ts : String) :
    ∀ op ∈ (runMain pl fetch prev ts).1,
      isRepl op = false → touches op OUT_XML = false := by
  intro op hop hrep
  rcases runMain_trace_elems pl fetch prev ts op hop with
    ⟨j, c, rfl⟩ | ⟨c, rfl⟩ | ⟨c, rfl⟩ | rfl | rfl
  · simp [touches, gzPath_ne_out j]
  · simp [touches, OUT_TMP, OUT_XML]
  · simp [touches, OUT_TMP, OUT_XML]
  · simp [touches, OUT_TMP, OUT_XML]
  · simp [isRepl] at hrep

/-- `l1 ++ t = l2` for some `t`. -/
def listPref {α : Type} (l1 l2 : List α) : Prop := ∃ t, l1 ++ t = l2

/-- In a list of non-rename operations followed by one final operation,
any rename can only be that final operation. -/
theorem repl_only_last :
    ∀ (A : List FsOp) (fin : FsOp) (l1 : List FsOp) (op : FsOp)
      (l2 : List FsOp),
      (∀ x ∈ A, isRepl x = false) →
      A ++ [fin] = l1 ++ op :: l2 → isRepl op = true → l2 = [] := by
  intro A
  induction A with
  | nil =>
    intro fin l1 op l2 _ heq _
    cases l1 with
    | nil =>
      simp only [List.nil_append] at heq
      injection heq with h1 h2
      exact h2.symm
    | cons x l1' =>
      simp only [List.nil_append, List.cons_append] at heq
      injection heq with h1 h2
      exact absurd (List.append_eq_nil.1 h2.symm).2 (by simp)
  | cons a A' ih =>
    intro fin l1 op l2 hA heq hop
    cases l1 with
    | nil =>
      simp only [List.cons_append, List.nil_append] at heq
      injection heq with h1 h2
      have hfa := hA a (List.mem_cons_self _ _)
      rw [h1] at hfa
      rw [hfa] at hop
      exact absurd hop (by simp)
    | cons x l1' =>
      simp only [List.cons_append] at heq
      injection heq with h1 h2
      exact ih fin l1' op l2 (fun y hy => hA y (List.mem_cons_of_mem _ hy))
        h2 hop

/-- C8: `epg.xml` is never the target of a direct write, append, or
remove; a run's trace contains at most one rename, always
`os.replace("epg.xml.tmp", "epg.xml")`; a rename can only be the very
last operation of the trace (after the temporary file is fully
constructed); and over any trace prefix that contains no rename the
content of `epg.xml` is unchanged from any starting file system. -/
theorem C8_atomic_publish (pl : Option (List String))
    (fetch : String → Nat → Except NetErr (List String))
    (prev : Option String) (ts : String) (fs0 : String → Option String) :
    (∀ op ∈ (runMain pl fetch prev ts).1, directTouch op OUT_XML = false) ∧
    ((runMain pl fetch prev ts).1.countP isRepl ≤ 1) ∧
    (∀ op ∈ (runMain pl fetch prev ts).1, isRepl op = true →
      op = FsOp.freplace OUT_TMP OUT_XML) ∧
    (∀ l1 op l2, (runMain pl fetch prev ts).1 = l1 ++ op :: l2 →
      isRepl op = true → l2 = []) ∧
    (∀ pfx, listPref pfx (runMain pl fetch prev ts).1 →
      (∀ op ∈ pfx, isRepl op = false) →
      (pfx.foldl applyOp fs0) OUT_XML = fs0 OUT_XML) := by
  refine ⟨?_, ?_, ?_, ?_, ?_⟩
  · intro op hop
    rcases runMain_trace_elems pl fetch prev ts op hop with
      ⟨j, c, rfl⟩ | ⟨c, rfl⟩ | ⟨c, rfl⟩ | rfl | rfl
    · simp [directTouch, gzPath_ne_out j]
    · simp [directTouch, OUT_TMP, OUT_XML]
    · simp [directTouch, OUT_TMP, OUT_XML]
    · simp [directTouch, OUT_TMP, OUT_XML]
    · simp [directTouch]
  · rcases runMain_trace_shape pl fetch prev ts with
      ⟨dlOps, heq, hsh⟩ | ⟨dlOps, chunks, fin, heq, hsh, hfin⟩
    · rw [heq]
      have : dlOps.countP isRepl = 0 := by
        rw [List.countP_eq_zero]
        intro op hop
        obtain ⟨j, c, rfl⟩ := hsh op hop
        simp [isRepl]
      simp [this]
    · rw [heq]
      rw [List.countP_append, List.countP_append]
      have h1 : dlOps.countP isRepl = 0 := by
        rw [List.countP_eq_zero]
        intro op hop
        obtain ⟨j, c, rfl⟩ := hsh op hop
        simp [isRepl]
      have h2 : (FsOp.fwrite OUT_TMP "" ::
          chunks.map (FsOp.fappend OUT_TMP)).countP isRepl = 0 := by
        rw [List.countP_eq_zero]
        intro op hop
        rcases List.mem_cons.1 hop with rfl | hop
        · simp [isRepl]
        · obtain ⟨c, _, rfl⟩ := List.mem_map.1 hop
          simp [isRepl]
      have h3 : ([fin] : List FsOp).countP isRepl ≤ 1 := by
        rcases hfin with rfl | rfl <;> simp [List.countP_cons, isRepl]
      omega
  · intro op hop hrep
    rcases runMain_trace_elems pl fetch prev ts op hop with
      ⟨j, c, rfl⟩ | ⟨c, rfl⟩ | ⟨c, rfl⟩ | rfl | rfl
    · simp [isRepl] at hrep
    · simp [isRepl] at hrep
    · simp [isRepl] at hrep
    · simp [isRepl] at hrep
    · rfl
  · intro l1 op l2 heq hrep
    rcases runMain_trace_shape pl fetch prev ts with
      ⟨dlOps, heq2, hsh⟩ | ⟨dlOps, chunks, fin, heq2, hsh, hfin⟩
    · exfalso
      have hmem : op ∈ (runMain pl fetch prev ts).1 := by
        rw [heq]
        exact List.mem_append.2 (Or.inr (List.mem_cons_self _ _))
      rw [heq2] at hmem
      obtain ⟨j, c, rfl⟩ := hsh op hmem
      simp [isRepl] at hrep
    · rw [heq2] at heq
      rw [show dlOps ++ (FsOp.fwrite OUT_TMP "" ::
          chunks.map (FsOp.fappend OUT_TMP)) ++ [fin] =
        (dlOps ++ (FsOp.fwrite OUT_TMP "" ::
          chunks.map (FsOp.fappend OUT_TMP))) ++ [fin] by simp] at heq
      refine repl_only_last _ fin l1 op l2 ?_ heq hrep
      intro x hx
      rcases List.mem_append.1 hx with hx | hx
      · obtain ⟨j, c, rfl⟩ := hsh x hx
        simp [isRepl]
      · rcases List.mem_cons.1 hx with rfl | hx
        · simp [isRepl]
        · obtain ⟨c, _, rfl⟩ := List.mem_map.1 hx
          simp [isRepl]
  · intro pfx hpfx hnorepl
    refine foldl_applyOp_not_touches pfx fs0 ?_
    intro op hop
    obtain ⟨t, ht⟩ := hpfx
    have hmem : op ∈ (runMain pl fetch prev ts).1 := by
      rw [← ht]
      exact List.mem_append.2 (Or.inl hop)
    exact runMain_nonrepl_not_touches pl fetch prev ts op hmem (hnorepl op hop)

/-! ### Concrete fixtures -/

/-- A one-channel playlist. -/
def plA : List String := ["#EXTINF:-1 tvg-id=\"A\",X\n"]

/-- A minimal well-formed feed containing one allow-listed channel. -/
def tinyFeed : List String :=
  ["<tv>\n", "<channel id=\"A\">\n", "</channel>\n", "</tv>\n"]

/-- A network environment in which every URL downloads `tinyFeed` on the
first attempt. -/
def fetchTiny : String → Nat → Except NetErr (List String) :=
  fun _ _ => Except.ok tinyFeed

set_option maxRecDepth 100000 in
/-- C1: the generation-timestamp comment written into the output defeats
the script's own SHA-256 no-change check.  With the playlist and every
feed unchanged between two successive runs whose timestamps differ
("T1" then "T2"), the first run publishes a file, and the second run
exits with status 0 but replaces `epg.xml` with different bytes instead
of leaving it untouched. -/
theorem C1_second_run_rewrites :
    (runMain (some plA) fetchTiny none "T1").2 = Except.ok () ∧
    (finalEpg none (runMain (some plA) fetchTiny none "T1").1).isSome ∧
    (runMain (some plA) fetchTiny
      (finalEpg none (runMain (some plA) fetchTiny none "T1").1) "T2").2 =
      Except.ok () ∧
    finalEpg (finalEpg none (runMain (some plA) fetchTiny none "T1").1)
      (runMain (some plA) fetchTiny
        (finalEpg none (runMain (some plA) fetchTiny none "T1").1) "T2").1 ≠
      finalEpg none (runMain (some plA) fetchTiny none "T1").1 := by
  decide

set_option maxRecDepth 100000 in
/-- With an identical timestamp the second run would be the intended
no-op (the no-change machinery itself works): same content, `epg.xml`
untouched, exit 0. -/
theorem second_run_same_ts_noop :
    (runMain (some plA) fetchTiny
      (finalEpg none (runMain (some plA) fetchTiny none "T1").1) "T1").2 =
      Except.ok () ∧
    finalEpg (finalEpg none (runMain (some plA) fetchTiny none "T1").1)
      (runMain (some plA) fetchTiny
        (finalEpg none (runMain (some plA) fetchTiny none "T1").1) "T1").1 =
      finalEpg none (runMain (some plA) fetchTiny none "T1").1 := by
  decide

set_option maxRecDepth 100000 in
theorem C8_atomic_publish_witness :
    directTouch (FsOp.fwrite (gzPath 1) (pyJoin tinyFeed)) OUT_XML = false ∧
    ((runMain (some plA) fetchTiny none "T").1.countP isRepl ≤ 1) ∧
    (([] : List FsOp).foldl applyOp (initFs (some "x"))) OUT_XML =
      initFs (some "x") OUT_XML := by
  refine ⟨?_, ?_, ?_⟩
  · exact (C8_atomic_publish (some plA) fetchTiny none "T"
      (initFs (some "x"))).1 _ (by decide)
  · exact (C8_atomic_publish (some plA) fetchTiny none "T"
      (initFs (some "x"))).2.1
  · exact (C8_atomic_publish (some plA) fetchTiny none "T"
      (initFs (some "x"))).2.2.2.2 [] ⟨_, rfl⟩ (by intro op h; simp at h)

set_option maxRecDepth 40000 in
theorem C3_filter_exact_witness :
    blockText ⟨BType.channel, some "A",
        ["<channel id=\"A\">\n", "</channel>\n"]⟩ ∈
      mergedChunks {"A"} [tinyFeed] "T" :=
  (C3_filter_exact {"A"} [tinyFeed] "T").2
    ⟨BType.channel, some "A", ["<channel id=\"A\">\n", "</channel>\n"]⟩
    (by decide) (by decide)

/-! ### Retry semantics of `download` -/

/-- Strictly increasing list of naturals. -/
def sIncr : List Nat → Prop
  | [] => True
  | [_] => True
  | a :: b :: t => a < b ∧ sIncr (b :: t)

/-- Strictly increasing with a lower bound. -/
def sIncrFrom (lb : Nat) : List Nat → Prop
  | [] => True
  | a :: t => lb ≤ a ∧ sIncrFrom (a + 1) t

theorem sIncrFrom_mono {lb lb' : Nat} :
    ∀ {l : List Nat}, lb' ≤ lb → sIncrFrom lb l → sIncrFrom lb' l := by
  intro l
  cases l with
  | nil => intro _ _; trivial
  | cons a t =>
    intro h hf
    exact ⟨le_trans h hf.1, hf.2⟩

theorem sIncr_of_from : ∀ {l : List Nat} {lb : Nat}, sIncrFrom lb l → sIncr l := by
  intro l
  induction l with
  | nil => intro lb _; trivial
  | cons a t ih =>
    intro lb h
    cases t with
    | nil => trivial
    | cons b t' =>
      exact ⟨lt_of_lt_of_le (Nat.lt_succ_self a) h.2.1, ih h.2⟩

theorem downloadAux_sleeps (att : Nat → Except NetErr (List String))
    (p : String) :
    ∀ (k i : Nat) (last : Option NetErr),
      sIncrFrom (3 * i) ((downloadAux att p k i last).2.1) := by
  intro k
  induction k with
  | zero => intro i last; trivial
  | succ k ih =>
    intro i last
    cases hai : att i with
    | ok d => simp [downloadAux, hai, sIncrFrom]
    | error e =>
      simp only [downloadAux, hai]
      refine ⟨le_refl _, ?_⟩
      refine sIncrFrom_mono ?_ (ih (i + 1) (some e))
      omega

/-- If the first success of the attempt sequence falls within the
remaining budget, `download` returns its data, writes it to the output
path, and stops retrying. -/
theorem downloadAux_success (att : Nat → Except NetErr (List String))
    (p : String) (d : List String) :
    ∀ (k i : Nat) (last : Option NetErr) (j : Nat), i ≤ j → j < i + k →
      att j = Except.ok d →
      (∀ m, i ≤ m → m < j → ∃ e, att m = Except.error e) →
      (downloadAux att p k i last).1 = Except.ok d ∧
        (downloadAux att p k i last).2.2 = [FsOp.fwrite p (pyJoin d)] := by
  intro k
  induction k with
  | zero => intro i last j h1 h2 _ _; omega
  | succ k ih =>
    intro i last j h1 h2 hj hfail
    by_cases hij : i = j
    · subst hij
      simp [downloadAux, hj]
    · obtain ⟨e, he⟩ := hfail i (le_refl i) (by omega)
      simp only [downloadAux, he]
      exact ih (i + 1) (some e) j (by omega) (by omega) hj
        (fun m hm1 hm2 => hfail m (by omega) hm2)

/-- If all five attempts fail, `download` raises the error of the last
attempt after sleeping 3, 6, 9, 12 and 15 seconds. -/
theorem download5_fail (att : Nat → Except NetErr (List String)) (p : String)
    (h : ∀ j, 1 ≤ j → j ≤ 5 → ∃ e, att j = Except.error e) :
    ∃ e5, att 5 = Except.error e5 ∧
      (download att p 5).1 = Except.error (some e5) ∧
      (download att p 5).2.1 = [3, 6, 9, 12, 15] ∧
      (download att p 5).2.2 = [] := by
  obtain ⟨e1, h1⟩ := h 1 (by omega) (by omega)
  obtain ⟨e2, h2⟩ := h 2 (by omega) (by omega)
  obtain ⟨e3, h3⟩ := h 3 (by omega) (by omega)
  obtain ⟨e4, h4⟩ := h 4 (by omega) (by omega)
  obtain ⟨e5, h5⟩ := h 5 (by omega) (by omega)
  refine ⟨e5, h5, ?_, ?_, ?_⟩ <;>
    simp [download, downloadAux, h1, h2, h3, h4, h5]

/-- A URL whose five attempts all fail makes the whole download phase
fail with the propagated error. -/
theorem downloadAll_fail_mem (fetch : String → Nat → Except NetErr (List String)) :
    ∀ (urls : List String) (i : Nat) (u : String), u ∈ urls →
      (∀ j, 1 ≤ j → j ≤ 5 → ∃ e, fetch u j = Except.error e) →
      (downloadAll fetch urls i).2 = Except.error RunErr.downloadFailed := by
  intro urls
  induction urls with
  | nil => intro i u hu; simp at hu
  | cons u' rest ih =>
    intro i u hu hfail
    rcases hdl : download (fetch u') (gzPath i) 5 with ⟨res, sl, ops⟩
    rcases List.mem_cons.1 hu with rfl | hu2
    · obtain ⟨e5, -, hres, -, -⟩ := download5_fail (fetch u) (gzPath i) hfail
      rw [hdl] at hres
      simp only at hres
      subst hres
      rw [downloadAll]
      rw [hdl]
    · cases res with
      | ok feed =>
        rw [downloadAll]
        rw [hdl]
        simp only
        rw [ih (i + 1) u hu2 hfail]
        rfl
      | error e =>
        rw [downloadAll]
        rw [hdl]

/-- C5: within the five-attempt budget, the first successful attempt
makes `download` return normally with the response written to the
output path; when every attempt fails, `download` raises the error of
the last attempt; the backoff sleeps are strictly increasing; and a run
of `main` in which some URL exhausts its retries fails with the
propagated download error and leaves `epg.xml` exactly as it was. -/
theorem C5_download_retry (att : Nat → Except NetErr (List String))
    (p : String) (pl : Option (List String))
    (fetch : String → Nat → Except NetErr (List String))
    (prev : Option String) (ts : String) (u : String) (A : Finset String) :
    (∀ j d, 1 ≤ j → j ≤ 5 → att j = Except.ok d →
      (∀ m, 1 ≤ m → m < j → ∃ e, att m = Except.error e) →
      (download att p 5).1 = Except.ok d ∧
        (download att p 5).2.2 = [FsOp.fwrite p (pyJoin d)]) ∧
    ((∀ j, 1 ≤ j → j ≤ 5 → ∃ e, att j = Except.error e) →
      ∃ e5, att 5 = Except.error e5 ∧
        (download att p 5).1 = Except.error (some e5) ∧
        (download att p 5).2.1 = [3, 6, 9, 12, 15]) ∧
    sIncr (download att p 5).2.1 ∧
    (load_allowed_tvg_ids pl = Except.ok A → u ∈ URLS →
      (∀ j, 1 ≤ j → j ≤ 5 → ∃ e, fetch u j = Except.error e) →
      (runMain pl fetch prev ts).2 = Except.error RunErr.downloadFailed ∧
        finalEpg prev (runMain pl fetch prev ts).1 = prev) := by
  refine ⟨?_, ?_, ?_, ?_⟩
  · intro j d h1 h5 hj hfail
    exact downloadAux_success att p d 5 1 none j h1 (by omega) hj hfail
  · intro hfail
    obtain ⟨e5, he5, hres, hsl, -⟩ := download5_fail att p hfail
    exact ⟨e5, he5, hres, hsl⟩
  · exact sIncr_of_from (downloadAux_sleeps att p 5 1 none)
  · intro hl hu hfail
    have hd : (downloadAll fetch URLS 1).2 =
        Except.error RunErr.downloadFailed :=
      downloadAll_fail_mem fetch URLS 1 u hu hfail
    rw [runMain_dl_fail pl fetch prev ts A RunErr.downloadFailed hl hd]
    exact ⟨rfl, finalEpg_gz_only prev _ (downloadAll_ops fetch URLS 1)⟩

/-- An attempt sequence that fails once and then succeeds. -/
def att2 : Nat → Except NetErr (List String) :=
  fun i => if i = 2 then Except.ok ["d\n"] else Except.error 7

/-- An attempt sequence that always fails. -/
def attF : Nat → Except NetErr (List String) := fun _ => Except.error 9

/-- A network environment in which every attempt of every URL fails. -/
def fetchF : String → Nat → Except NetErr (List String) :=
  fun _ _ => Except.error 9

set_option maxRecDepth 40000 in
theorem C5_download_retry_witness :
    ((download att2 "o" 5).1 = Except.ok ["d\n"] ∧
      (download att2 "o" 5).2.2 = [FsOp.fwrite "o" (pyJoin ["d\n"])]) ∧
    ((download attF "o" 5).1 = Except.error (some 9) ∧
      (download attF "o" 5).2.1 = [3, 6, 9, 12, 15]) ∧
    sIncr (download att2 "o" 5).2.1 ∧
    ((runMain (some plA) fetchF (some "x") "T").2 =
        Except.error RunErr.downloadFailed ∧
      finalEpg (some "x") (runMain (some plA) fetchF (some "x") "T").1 =
        some "x") := by
  have hmain := C5_download_retry att2 "o" (some plA) fetchF (some "x") "T"
    "https://epgshare01.online/epgshare01/epg_ripper_US2.xml.gz" {"A"}
  have hmainF := C5_download_retry attF "o" (some plA) fetchF (some "x") "T"
    "https://epgshare01.online/epgshare01/epg_ripper_US2.xml.gz" {"A"}
  refine ⟨?_, ?_, ?_, ?_⟩
  · exact hmain.1 2 ["d\n"] (by omega) (by omega) rfl
      (fun m h1 h2 => ⟨7, by simp [att2]; omega⟩)
  · obtain ⟨e5, he5, hres, hsl⟩ := hmainF.2.1
      (fun j _ _ => ⟨9, rfl⟩)
    have : e5 = 9 := by
      have h9 : (9 : NetErr) = e5 := by
        simpa [attF] using he5
      exact h9.symm
    subst this
    exact ⟨hres, hsl⟩
  · exact hmain.2.2.1
  · exact hmain.2.2.2 (by decide) (by decide) (fun j _ _ => ⟨9, rfl⟩)

/-! ### C6: malformed feed content -/

/-- A downloaded feed with no `<tv` marker at all. -/
def malFeed : List String := ["hello\n"]

/-- A network environment serving the malformed feed everywhere. -/
def fetchMal : String → Nat → Except NetErr (List String) :=
  fun _ _ => Except.ok malFeed

theorem innerLines_no_tv (ls : List String)
    (h : ∀ l ∈ ls, strIn "<tv" l = false) : innerLines ls = [] := by
  unfold innerLines
  induction ls with
  | nil => rfl
  | cons l t ih =>
    rw [show innerAux false (l :: t) = innerAux false t by
      simp [innerAux, h l (List.mem_cons_self _ _)]]
    exact ih (fun x hx => h x (List.mem_cons_of_mem _ hx))

set_option maxRecDepth 40000 in
/-- C6 counterexample: a feed that decompresses to text without the
`<tv ...>` root marker does not make the run fail: it contributes no
inner lines, and with such feeds on every URL the run publishes an
output containing no blocks and exits with status 0. -/
theorem C6_counterexample :
    innerLines malFeed = [] ∧
    (runMain (some plA) fetchMal none "T").2 = Except.ok () ∧
    (finalEpg none (runMain (some plA) fetchMal none "T").1).isSome := by
  decide

/-- C6 amended: content lacking the `<tv` marker is silently treated as
an empty feed — `iter_xmltv_inner_lines` yields nothing from it and the
run completes successfully rather than failing. -/
theorem C6_malformed_not_fatal :
    (∀ ls : List String, (∀ l ∈ ls, strIn "<tv" l = false) →
      innerLines ls = []) ∧
    (runMain (some plA) fetchMal none "T").2 = Except.ok () := by
  constructor
  · exact innerLines_no_tv
  · have hl : load_allowed_tvg_ids (some plA) = Except.ok {"A"} := by decide
    have hd : (downloadAll fetchMal URLS 1).2 =
        Except.ok (List.replicate 16 malFeed) := by decide
    rw [runMain_publish (some plA) fetchMal none "T" {"A"}
      (List.replicate 16 malFeed) hl hd (by simp)]
    simp only
    rw [if_neg]
    intro hgt
    revert hgt
    decide

set_option maxRecDepth 40000 in
theorem C6_malformed_not_fatal_witness :
    innerLines ["junk\n", "also junk\n"] = [] ∧
    (runMain (some plA) fetchMal none "T").2 = Except.ok () :=
  ⟨C6_malformed_not_fatal.1 ["junk\n", "also junk\n"] (by decide),
    C6_malformed_not_fatal.2⟩

/-! ### C9: block state across feed boundaries -/

/-- The buffer is empty exactly outside a block. -/
def bufInv (s : ScanState) : Prop :=
  match s.block_type with
  | none => s.buf = []
  | some _ => s.buf ≠ []

theorem flush_block_bufInv (allowed : Finset String) (s : ScanState) :
    bufInv (flush_block allowed s) := by
  unfold flush_block
  split <;> simp [bufInv]

theorem scanLine_bufInv (allowed : Finset String) (s : ScanState)
    (line : String) (h : bufInv s) : bufInv (scanLine allowed s line) := by
  unfold scanLine
  cases hb : s.block_type with
  | none =>
    by_cases hc : strIn "<channel " line = true
    · simp [hc, bufInv]
    · by_cases hp : strIn "<programme " line = true
      · simp [hc, hp, bufInv]
      · simp [hc, hp]
        rw [bufInv, hb]
        rw [bufInv, hb] at h
        exact h
  | some bt =>
    by_cases hcl : bt = BType.channel ∧ strIn "</channel>" line = true
    · simp [hcl]
      exact flush_block_bufInv _ _
    · by_cases hpl : bt = BType.programme ∧ strIn "</programme>" line = true
      · simp [hcl, hpl]
        exact flush_block_bufInv _ _
      · simp [hcl, hpl, bufInv]

theorem foldl_bufInv (allowed : Finset String) :
    ∀ (lines : List String) (s : ScanState), bufInv s →
      bufInv (lines.foldl (scanLine allowed) s) := by
  intro lines
  induction lines with
  | nil => intro s h; exact h
  | cons l t ih =>
    intro s h
    exact ih _ (scanLine_bufInv allowed s l h)

/-- Inside a block, lines that never carry the matching closing marker
are only ever appended to the buffer. -/
theorem scan_in_block (allowed : Finset String) (bt : BType) :
    ∀ (l2 : List String) (s : ScanState),
      s.block_type = some bt →
      (∀ l ∈ l2, strIn (closeMark bt) l = false) →
      l2.foldl (scanLine allowed) s =
        ⟨s.buf ++ l2, s.block_type, s.channel_id, s.programme_channel,
          s.out⟩ := by
  intro l2
  induction l2 with
  | nil =>
    intro s _ _
    cases s
    simp
  | cons l t ih =>
    intro s hb hno
    have hcl : strIn (closeMark bt) l = false := hno l (List.mem_cons_self _ _)
    have hstep : scanLine allowed s l =
        ⟨s.buf ++ [l], s.block_type, s.channel_id, s.programme_channel,
          s.out⟩ := by
      cases bt with
      | channel =>
        simp only [closeMark] at hcl
        simp [scanLine, hb, hcl]
      | programme =>
        simp only [closeMark] at hcl
        simp [scanLine, hb, hcl]
    rw [List.foldl_cons, hstep,
      ih _ (by rw [← hb]) (fun x hx => hno x (List.mem_cons_of_mem _ hx))]
    simp

/-- C9: scanning state is not reset at feed boundaries.  If after the
first feed's inner lines a block is still open, and the second feed's
inner lines never carry its closing marker, then scanning both feeds
leaves everything of the open block in place with all of the second
feed's inner lines appended to its buffer, and when the block's key is
in the allow-list the final `flush_block()` writes this closing-tag-less
text into the merged output of the two-feed run. -/
theorem C9_cross_feed_block (allowed : Finset String)
    (f1 f2 : List String) (ts : String) (bt : BType)
    (hbt : ((innerLines f1).foldl (scanLine allowed) initScan).block_type =
      some bt)
    (hnoclose : ∀ l ∈ innerLines f2, strIn (closeMark bt) l = false) :
    ((innerLines f1 ++ innerLines f2).foldl (scanLine allowed) initScan =
      ⟨((innerLines f1).foldl (scanLine allowed) initScan).buf ++
          innerLines f2,
        ((innerLines f1).foldl (scanLine allowed) initScan).block_type,
        ((innerLines f1).foldl (scanLine allowed) initScan).channel_id,
        ((innerLines f1).foldl (scanLine allowed) initScan).programme_channel,
        ((innerLines f1).foldl (scanLine allowed) initScan).out⟩) ∧
    (memAllowed allowed
        (stKey bt ((innerLines f1).foldl (scanLine allowed) initScan)) =
        true →
      pyJoin (((innerLines f1).foldl (scanLine allowed) initScan).buf ++
          innerLines f2) ∈ mergedChunks allowed [f1, f2] ts) := by
  have hfold : (innerLines f1 ++ innerLines f2).foldl (scanLine allowed)
      initScan = _ := List.foldl_append ..
  have hs2 := scan_in_block allowed bt (innerLines f2)
    ((innerLines f1).foldl (scanLine allowed) initScan) hbt hnoclose
  constructor
  · rw [List.foldl_append, hs2]
  · intro hmem
    have hbuf : ((innerLines f1).foldl (scanLine allowed) initScan).buf ≠
        [] := by
      have hinv := foldl_bufInv allowed (innerLines f1) initScan
        (by rw [bufInv]; rfl)
      rw [bufInv, hbt] at hinv
      exact hinv
    rw [mergedChunks]
    refine List.mem_append.2 (Or.inl (List.mem_append.2 (Or.inr ?_)))
    rw [show (List.map innerLines [f1, f2]).flatten =
      innerLines f1 ++ innerLines f2 by simp]
    rw [scanChunks, List.foldl_append, hs2]
    set s1 := (innerLines f1).foldl (scanLine allowed) initScan with hs1
    have hkeep : (match (some bt : Option BType) with
        | some BType.channel => memAllowed allowed s1.channel_id
        | some BType.programme => memAllowed allowed s1.programme_channel
        | none => false) = true := by
      cases bt with
      | channel => simpa [stKey] using hmem
      | programme => simpa [stKey] using hmem
    rw [flush_block]
    rw [if_neg (by rw [hbt]; simp [hbuf])]
    simp only [hbt]
    simp only [hbt] at hkeep
    rw [hkeep]
    simp

/-- A feed whose channel block is never closed. -/
def pendingFeed : List String := ["<tv>\n", "<channel id=\"A\">\n"]

/-- A following feed with no closing marker either. -/
def contFeed : List String := ["<tv>\n", "x\n", "</tv>\n"]

set_option maxRecDepth 40000 in
theorem C9_cross_feed_block_witness :
    pyJoin (((innerLines pendingFeed).foldl
          (scanLine ({"A"} : Finset String)) initScan).buf ++
        innerLines contFeed) ∈
      mergedChunks {"A"} [pendingFeed, contFeed] "T" :=
  (C9_cross_feed_block {"A"} pendingFeed contFeed "T" BType.channel
    (by decide) (by decide)).2 (by decide)

/-! ### C10/C4: the tvg-id selection -/

/-- An attribute value counted as present only when non-empty. -/
def nonEmptyVal (o : Option String) : Option String :=
  match o with
  | some s => if s = "" then none else some s
  | none => none

/-- Per the specified behaviour: try the key variants in the fixed order
`tvg-id`, `tvgid`, `tvg_id` (an empty value falling through like an
absent one, the last occurrence of a duplicated key winning), strip the
chosen value, and yield nothing when every variant is absent or empty. -/
def specSelect (line : String) : Option String :=
  match nonEmptyVal (dictGet (findAttrs line.toList) "tvg-id") with
  | some v => some (pyStrip v)
  | none =>
    match nonEmptyVal (dictGet (findAttrs line.toList) "tvgid") with
    | some v => some (pyStrip v)
    | none =>
      match nonEmptyVal (dictGet (findAttrs line.toList) "tvg_id") with
      | some v => some (pyStrip v)
      | none => none

theorem truthy_step (t : Option String) :
    (match t with
     | some s => if s = "" then none else some (pyStrip s)
     | none => none) =
    (match nonEmptyVal t with
     | some v => some (pyStrip v)
     | none => (none : Option String)) := by
  cases t with
  | none => rfl
  | some s => by_cases h : s = "" <;> simp [nonEmptyVal, h]

theorem nonEmptyVal_pyOr (a b : Option String) :
    nonEmptyVal (pyOr a b) =
      (match nonEmptyVal a with
       | some s => some s
       | none => nonEmptyVal b) := by
  cases a with
  | none => rfl
  | some s => by_cases h : s = "" <;> simp [pyOr, nonEmptyVal, h]

theorem selectTvg_eq_spec (line : String) : selectTvg line = specSelect line := by
  have h : selectTvg line =
      (match pyOr (pyOr (dictGet (findAttrs line.toList) "tvg-id")
          (dictGet (findAttrs line.toList) "tvgid"))
        (dictGet (findAttrs line.toList) "tvg_id") with
       | some s => if s = "" then none else some (pyStrip s)
       | none => none) := rfl
  rw [h, truthy_step, nonEmptyVal_pyOr, nonEmptyVal_pyOr]
  unfold specSelect
  cases nonEmptyVal (dictGet (findAttrs line.toList) "tvg-id") <;>
    cases nonEmptyVal (dictGet (findAttrs line.toList) "tvgid") <;>
      cases nonEmptyVal (dictGet (findAttrs line.toList) "tvg_id") <;> rfl

/-- C10: on a metadata line the loader picks the identifier by falling
through `tvg-id`, `tvgid`, `tvg_id` in that order, treating an
empty-string value like an absent one; the chosen value is
whitespace-stripped before insertion; and a `#EXTINF` line on which all
variants are absent or empty (like a non-`#EXTINF` line) contributes
nothing to the accumulated set. -/
theorem C10_select_fallthrough :
    (∀ line : String, selectTvg line = specSelect line) ∧
    (∀ (acc : Finset String) (line : String),
      loadStep acc line =
        if strStartsWith "#EXTINF" line then
          match specSelect line with
          | some v => insert v acc
          | none => acc
        else acc) := by
  refine ⟨selectTvg_eq_spec, ?_⟩
  intro acc line
  unfold loadStep
  rw [selectTvg_eq_spec]

/-- The per-line specified selection, folded over the playlist. -/
def specAllowedSet (lines : List String) : Finset String :=
  lines.foldl (fun acc l =>
    if strStartsWith "#EXTINF" l then
      match specSelect l with
      | some v => insert v acc
      | none => acc
    else acc) ∅

set_option maxRecDepth 10000 in
/-- C4 counterexample: the playlist line
`#EXTINF:-1 tvg-id="A" tvgid="B",Ch` carries the two identifier values
`A` and `B` across the accepted key spellings (as `ATTR_RE.findall`
shows), yet the loader returns `{A}` alone: the fallthrough never reads
`tvgid` once `tvg-id` is non-empty. -/
theorem C4_counterexample :
    load_allowed_tvg_ids (some ["#EXTINF:-1 tvg-id=\"A\" tvgid=\"B\",Ch\n"]) =
      Except.ok {"A"} ∧
    findAttrs ("#EXTINF:-1 tvg-id=\"A\" tvgid=\"B\",Ch\n".toList) =
      [("tvg-id", "A"), ("tvgid", "B")] ∧
    ({"A"} : Finset String) ≠ ({"A", "B"} : Finset String) := by
  decide

/-- C4 amended: the loader returns exactly the set of per-line selected
identifiers — for each `#EXTINF` line the first non-empty variant in the
order `tvg-id`, `tvgid`, `tvg_id` (last occurrence of a repeated key),
whitespace-stripped — other lines and lines with no non-empty variant
contributing nothing, and it raises when that set is empty. -/
theorem C4_loader_exact (lines : List String) :
    load_allowed_tvg_ids (some lines) =
      (if specAllowedSet lines = ∅ then Except.error LoadErr.noIds
       else Except.ok (specAllowedSet lines)) := by
  have h : ∀ init : Finset String,
      lines.foldl loadStep init = lines.foldl (fun acc l =>
        if strStartsWith "#EXTINF" l then
          match specSelect l with
          | some v => insert v acc
          | none => acc
        else acc) init := by
    induction lines with
    | nil => intro init; rfl
    | cons l t ih =>
      intro init
      rw [List.foldl_cons, List.foldl_cons, ih]
      congr 1
      rw [loadStep, selectTvg_eq_spec]
  rw [show load_allowed_tvg_ids (some lines) =
    (if lines.foldl loadStep ∅ = ∅ then Except.error LoadErr.noIds
     else Except.ok (lines.foldl loadStep ∅)) from rfl, h ∅]
  rfl

/-! ### C2: the oversized-output run -/

theorem innerAux_true_cons (l : String) (h : strIn "</tv>" l = false)
    (t : List String) : innerAux true (l :: t) = l :: innerAux true t := by
  simp [innerAux, h]

theorem innerAux_true_replicate (l : String) (h : strIn "</tv>" l = false) :
    ∀ (n : Nat) (rest : List String),
      innerAux true (List.replicate n l ++ rest) =
        List.replicate n l ++ innerAux true rest := by
  intro n
  induction n with
  | zero => intro rest; simp
  | succ n ih =>
    intro rest
    rw [List.replicate_succ, List.cons_append, innerAux_true_cons l h,
      ih rest, ← List.cons_append, ← List.replicate_succ]

/-- One line of one hundred `a` characters. -/
def bigLine : String :=
  "aaaaaaaaaaaaaaaaaaaaaaaaaaaaaaaaaaaaaaaaaaaaaaaaaa" ++
  "aaaaaaaaaaaaaaaaaaaaaaaaaaaaaaaaaaaaaaaaaaaaaaaaaa\n"

/-- One million content lines per feed. -/
def BIGN : Nat := 1000000

/-- A feed with a single allow-listed channel block holding `BIGN` long
lines. -/
def bigFeed : List String :=
  ["<tv>\n", "<channel id=\"A\">\n"] ++ List.replicate BIGN bigLine ++
    ["</channel>\n", "</tv>\n"]

/-- A network environment serving `bigFeed` everywhere. -/
def fetchBig : String → Nat → Except NetErr (List String) :=
  fun _ _ => Except.ok bigFeed

/-- The text of the big channel block. -/
def chunkBig : String :=
  pyJoin ("<channel id=\"A\">\n" ::
    (List.replicate BIGN bigLine ++ ["</channel>\n"]))

theorem innerLines_bigFeed :
    innerLines bigFeed =
      "<channel id=\"A\">\n" ::
        (List.replicate BIGN bigLine ++ ["</channel>\n"]) := by
  have hbig : strIn "</tv>" bigLine = false := by decide
  have hstep : ∀ rest : List String,
      innerAux false ("<tv>\n" :: rest) = innerAux true rest := by
    intro rest
    have c1 : strIn "<tv" "<tv>\n" = true := by decide
    have c2 : splitOnce ">" "<tv>\n" = some ("<tv", "\n") := by decide
    have c3 : pyStrip "\n" = "" := by decide
    simp [innerAux, c1, c2, c3]
  rw [innerLines, show bigFeed = "<tv>\n" :: ("<channel id=\"A\">\n" ::
      (List.replicate BIGN bigLine ++ ["</channel>\n", "</tv>\n"])) by
    rw [bigFeed]; simp]
  rw [hstep, innerAux_true_cons _ (by decide),
    innerAux_true_replicate bigLine hbig BIGN,
    show innerAux true ["</channel>\n", "</tv>\n"] = ["</channel>\n"] by
      decide]

theorem scan_bigFeed (out : List String) :
    (innerLines bigFeed).foldl (scanLine ({"A"} : Finset String))
        ⟨[], none, none, none, out⟩ =
      ⟨[], none, none, none, out ++ [chunkBig]⟩ := by
  rw [innerLines_bigFeed]
  rw [List.foldl_cons]
  rw [show scanLine ({"A"} : Finset String) ⟨[], none, none, none, out⟩
      "<channel id=\"A\">\n" =
    ⟨["<channel id=\"A\">\n"], some BType.channel, some "A", none, out⟩ by
      have c1 : strIn "<channel " "<channel id=\"A\">\n" = true := by decide
      have c2 : strIn "id=\"" "<channel id=\"A\">\n" = true := by decide
      have c3 : extractAfter "id=\"" "<channel id=\"A\">\n" = "A" := by decide
      simp [scanLine, c1, c2, c3]]
  rw [show List.replicate BIGN bigLine ++ ["</channel>\n"] =
    List.replicate BIGN bigLine ++ ["</channel>\n"] from rfl]
  rw [List.foldl_append]
  rw [scan_in_block ({"A"} : Finset String) BType.channel
    (List.replicate BIGN bigLine) _ rfl ?hno]
  case hno =>
    intro x hx
    rw [List.eq_of_mem_replicate hx]
    decide
  rw [show List.foldl (scanLine ({"A"} : Finset String))
      ⟨["<channel id=\"A\">\n"] ++ List.replicate BIGN bigLine,
        some BType.channel, some "A", none, out⟩ ["</channel>\n"] =
    flush_block ({"A"} : Finset String)
      ⟨(["<channel id=\"A\">\n"] ++ List.replicate BIGN bigLine) ++
          ["</channel>\n"],
        some BType.channel, some "A", none, out⟩ by
      have c4 : strIn "</channel>" "</channel>\n" = true := by decide
      simp [scanLine, c4]]
  rw [flush_block]
  rw [if_neg (by simp)]
  have hmem : memAllowed {"A"} (some "A") = true := by decide
  simp only [hmem]
  rw [chunkBig]
  simp

theorem scan_bigFeeds :
    ∀ (n : Nat) (out : List String),
      ((List.replicate n (innerLines bigFeed)).flatten).foldl
          (scanLine ({"A"} : Finset String)) ⟨[], none, none, none, out⟩ =
        ⟨[], none, none, none, out ++ List.replicate n chunkBig⟩ := by
  intro n
  induction n with
  | zero => intro out; simp
  | succ n ih =>
    intro out
    rw [List.replicate_succ, List.flatten_cons, List.foldl_append,
      scan_bigFeed, ih, List.replicate_succ]
    simp [List.replicate_succ]

theorem merged_big :
    mergedChunks {"A"} (List.replicate 16 bigFeed) "T" =
      [commentLine "T", xmlDeclLine, tvOpenLine] ++
        List.replicate 16 chunkBig ++ [tvCloseLine] := by
  rw [mergedChunks, List.map_replicate, scanChunks]
  rw [show initScan = ⟨[], none, none, none, []⟩ from rfl]
  rw [scan_bigFeeds 16 []]
  rw [flush_block]
  rw [if_pos (by simp)]
  simp

theorem utf8Len_pyJoin_replicate (s : String) :
    ∀ n : Nat, utf8Len (pyJoin (List.replicate n s)) = n * utf8Len s := by
  intro n
  induction n with
  | zero => simp [pyJoin, utf8Len]
  | succ n ih =>
    rw [List.replicate_succ, pyJoin_cons, utf8Len_append, ih]
    ring

theorem utf8Len_chunkBig : utf8Len chunkBig = BIGN * 101 + 28 := by
  rw [chunkBig, pyJoin_cons, pyJoin_append, utf8Len_append, utf8Len_append,
    utf8Len_pyJoin_replicate]
  rw [show utf8Len "<channel id=\"A\">\n" = 17 by decide,
    show utf8Len bigLine = 101 by decide,
    show utf8Len (pyJoin ["</channel>\n"]) = 11 by decide]
  ring

theorem utf8Len_contentBig :
    utf8Len (pyJoin (mergedChunks {"A"} (List.replicate 16 bigFeed) "T")) =
      16 * (BIGN * 101 + 28) + 102 := by
  rw [merged_big, pyJoin_append, pyJoin_append, utf8Len_append,
    utf8Len_append, utf8Len_pyJoin_replicate, utf8Len_chunkBig]
  rw [show utf8Len (pyJoin [commentLine "T", xmlDeclLine, tvOpenLine]) = 96 by
      decide,
    show utf8Len (pyJoin [tvCloseLine]) = 6 by decide]
  ring

theorem contentBig_gt :
    utf8Len (pyJoin (mergedChunks {"A"} (List.replicate 16 bigFeed) "T")) >
      MAX_BYTES := by
  rw [utf8Len_contentBig, BIGN, MAX_BYTES]
  norm_num

theorem bigRun_eq :
    runMain (some plA) fetchBig (some "old") "T" =
      ((downloadAll fetchBig URLS 1).1 ++
        (FsOp.fwrite OUT_TMP "" ::
          (mergedChunks {"A"} (List.replicate 16 bigFeed) "T").map
            (FsOp.fappend OUT_TMP)) ++
        [FsOp.freplace OUT_TMP OUT_XML],
       Except.error RunErr.tooLarge) := by
  have hl : load_allowed_tvg_ids (some plA) = Except.ok {"A"} := by decide
  have hd : (downloadAll fetchBig URLS 1).2 =
      Except.ok (List.replicate 16 bigFeed) := rfl
  have hne : (some "old" : Option String) ≠
      some (pyJoin (mergedChunks {"A"} (List.replicate 16 bigFeed) "T")) := by
    intro h
    injection h with h2
    have h3 := congrArg utf8Len h2
    rw [utf8Len_contentBig, show utf8Len "old" = 3 by decide, BIGN] at h3
    omega
  rw [runMain_publish (some plA) fetchBig (some "old") "T" {"A"}
    (List.replicate 16 bigFeed) hl hd hne]
  rw [if_pos contentBig_gt]

/-- C2 counterexample: a run that violates the maximum-output-size
policy has already replaced `epg.xml`: on a million-line feed served
from every URL, the run raises the size error (non-zero exit) yet
`epg.xml` no longer holds its previous content `"old"`. -/
theorem C2_counterexample :
    (runMain (some plA) fetchBig (some "old") "T").2 =
      Except.error RunErr.tooLarge ∧
    finalEpg (some "old") (runMain (some plA) fetchBig (some "old") "T").1 ≠
      some "old" := by
  constructor
  · rw [bigRun_eq]
  · rw [bigRun_eq]
    simp only
    rw [finalEpg_publish_trace]
    intro h
    injection h with h2
    have h3 := congrArg utf8Len h2
    rw [utf8Len_contentBig, show utf8Len "old" = 3 by decide, BIGN] at h3
    omega

theorem downloadAll_error_kind
    (fetch : String → Nat → Except NetErr (List String)) :
    ∀ (urls : List String) (i : Nat) (e : RunErr),
      (downloadAll fetch urls i).2 = Except.error e →
      e = RunErr.downloadFailed := by
  intro urls
  induction urls with
  | nil => intro i e h; simp [downloadAll] at h
  | cons u rest ih =>
    intro i e h
    rcases hdl : download (fetch u) (gzPath i) 5 with ⟨res, sl, ops⟩
    cases res with
    | ok feed =>
      rw [downloadAll] at h
      rw [hdl] at h
      simp only at h
      rcases hrec : (downloadAll fetch rest (i + 1)).2 with e' | feeds'
      · rw [hrec] at h
        simp [Except.map] at h
        rw [← h]
        exact ih (i + 1) e' hrec
      · rw [hrec] at h
        simp [Except.map] at h
    | error e' =>
      rw [downloadAll] at h
      rw [hdl] at h
      simp only at h
      simpa using h.symm

/-- C2 amended: every run that fails before the publish step (missing
playlist, empty allow-list, exhausted download retries) leaves the
previously published `epg.xml` byte-for-byte unchanged; the
maximum-output-size violation, however, is detected only after
`os.replace`, so a run failing with it leaves `epg.xml` holding the new
oversized content, not the previous one. -/
theorem C2_failure_modes (pl : Option (List String))
    (fetch : String → Nat → Except NetErr (List String))
    (prev : Option String) (ts : String) :
    ((runMain pl fetch prev ts).2 = Except.error RunErr.playlistMissing ∨
     (runMain pl fetch prev ts).2 = Except.error RunErr.noTvgIds ∨
     (runMain pl fetch prev ts).2 = Except.error RunErr.downloadFailed →
      finalEpg prev (runMain pl fetch prev ts).1 = prev) ∧
    ((runMain pl fetch prev ts).2 = Except.error RunErr.tooLarge →
      ∃ c, finalEpg prev (runMain pl fetch prev ts).1 = some c ∧
        utf8Len c > MAX_BYTES ∧
        finalEpg prev (runMain pl fetch prev ts).1 ≠ prev) := by
  cases pl with
  | none =>
    rw [runMain_load_missing]
    constructor
    · intro _
      simp [finalEpg, initFs]
    · intro h
      exact absurd h (by simp)
  | some lines =>
    by_cases hld : lines.foldl loadStep ∅ = (∅ : Finset String)
    · rw [runMain_load_empty _ _ _ _ hld]
      constructor
      · intro _
        simp [finalEpg, initFs]
      · intro h
        exact absurd h (by simp)
    · have hl : load_allowed_tvg_ids (some lines) =
          Except.ok (lines.foldl loadStep ∅) := by
        simp [load_allowed_tvg_ids, hld]
      rcases hDL : (downloadAll fetch URLS 1).2 with e | feeds
      · have he := downloadAll_error_kind fetch URLS 1 e hDL
        subst he
        rw [runMain_dl_fail _ _ _ _ _ _ hl hDL]
        constructor
        · intro _
          exact finalEpg_gz_only prev _ (downloadAll_ops fetch URLS 1)
        · intro h
          exact absurd h (by simp)
      · by_cases hp : prev =
            some (pyJoin (mergedChunks (lines.foldl loadStep ∅) feeds ts))
        · rw [hp, runMain_noop _ _ _ _ _ hl hDL]
          constructor
          · intro _
            exact finalEpg_noop_trace _ _ _ (downloadAll_ops fetch URLS 1)
          · intro h
            exact absurd h (by simp)
        · rw [runMain_publish _ _ _ _ _ _ hl hDL hp]
          by_cases hgt : utf8Len (pyJoin (mergedChunks
              (lines.foldl loadStep ∅) feeds ts)) > MAX_BYTES
          · rw [if_pos hgt]
            constructor
            · rintro (h | h | h) <;> exact absurd h (by simp)
            · intro _
              refine ⟨pyJoin (mergedChunks (lines.foldl loadStep ∅) feeds ts),
                ?_, hgt, ?_⟩
              · exact finalEpg_publish_trace _ _ _
              · rw [finalEpg_publish_trace _ _ _]
                exact fun h => hp h.symm
          · rw [if_neg hgt]
            constructor
            · rintro (h | h | h) <;> exact absurd h (by simp)
            · intro h
              exact absurd h (by simp)

set_option maxRecDepth 40000 in
theorem C2_failure_modes_witness :
    finalEpg (some "x") (runMain none fetchTiny (some "x") "T").1 =
      some "x" ∧
    (∃ c, finalEpg (some "old")
        (runMain (some plA) fetchBig (some "old") "T").1 = some c ∧
      utf8Len c > MAX_BYTES ∧
      finalEpg (some "old")
        (runMain (some plA) fetchBig (some "old") "T").1 ≠ some "old") :=
  ⟨(C2_failure_modes none fetchTiny (some "x") "T").1
      (Or.inl (by rw [runMain_load_missing])),
    (C2_failure_modes (some plA) fetchBig (some "old") "T").2
      (by rw [bigRun_eq])⟩

/-! ### C7: root-tag occurrences in the output file's content -/

/-- The number of positions of `l` at which `sub` occurs as a
substring. -/
def countOcc (sub : List Char) : List Char → Nat
  | [] => if charsPref sub [] then 1 else 0
  | c :: t => (if charsPref sub (c :: t) then 1 else 0) + countOcc sub t

/-- Occurrences of `sub` in the string `s`. -/
def countOccStr (sub s : String) : Nat := countOcc sub.toList s.toList

theorem countOcc_nil {sub : List Char} (h : sub ≠ []) :
    countOcc sub [] = 0 := by
  cases sub with
  | nil => exact absurd rfl h
  | cons c t => simp [countOcc, charsPref]

theorem charsPref_false_of_short :
    ∀ {sub l : List Char}, l.length < sub.length → charsPref sub l = false := by
  intro sub
  induction sub with
  | nil => intro l h; simp at h
  | cons s ss ih =>
    intro l h
    cases l with
    | nil => rfl
    | cons c t =>
      have ht : t.length < ss.length := by
        simp at h
        omega
      simp [charsPref, ih ht]

theorem charsPref_extend_eq :
    ∀ (sub a b : List Char), sub.length ≤ a.length →
      charsPref sub (a ++ b) = charsPref sub a := by
  intro sub
  induction sub with
  | nil => intro a b _; simp [charsPref]
  | cons s ss ih =>
    intro a b h
    cases a with
    | nil => simp at h
    | cons c t =>
      simp only [List.cons_append, charsPref]
      rw [List.append_eq, ih t b (by simp at h; omega)]

theorem charsPref_split :
    ∀ (a sub b : List Char), charsPref sub (a ++ b) = true →
      charsPref sub a = true ∨
        ∃ sub2, sub = a ++ sub2 ∧ charsPref sub2 b = true := by
  intro a
  induction a with
  | nil => intro sub b h; exact Or.inr ⟨sub, rfl, h⟩
  | cons c t ih =>
    intro sub b h
    cases sub with
    | nil => exact Or.inl rfl
    | cons s ss =>
      rw [List.cons_append] at h
      simp [charsPref] at h
      rcases ih ss b h.2 with h2 | ⟨sub2, rfl, h3⟩
      · exact Or.inl (by simp [charsPref, h.1, h2])
      · exact Or.inr ⟨sub2, by simp [h.1], h3⟩

theorem getLast?_mem_self {l : List Char} {a : Char}
    (h : l.getLast? = some a) : a ∈ l := by
  obtain ⟨hne, heq⟩ :=
    @List.mem_getLast?_eq_getLast Char l a (by simp [h])
  rw [heq]
  exact List.getLast_mem hne

/-- When `a` ends with a newline and `sub` has none, a match of `sub`
starting in `a` cannot reach into `b`. -/
theorem pref_boundary_nl {sub : List Char} (a b : List Char)
    (hnl : '\n' ∉ sub) (hend : a.getLast? = some '\n') :
    charsPref sub (a ++ b) = charsPref sub a := by
  by_cases hlen : sub.length ≤ a.length
  · exact charsPref_extend_eq sub a b hlen
  · rw [show charsPref sub a = false from charsPref_false_of_short (by omega)]
    cases hp : charsPref sub (a ++ b) with
    | false => rfl
    | true =>
      rcases charsPref_split a sub b hp with h2 | ⟨sub2, rfl, -⟩
      · rw [charsPref_false_of_short (by omega)] at h2
        exact absurd h2 (by simp)
      · exact absurd (List.mem_append_left sub2 (getLast?_mem_self hend)) hnl

/-- When no proper tail of `sub` starts `b`, a match of `sub` starting
in `a` cannot reach into `b`. -/
theorem pref_boundary_nospan {sub : List Char} (a b : List Char)
    (hne : a ≠ [])
    (hspan : ∀ k, 0 < k → k < sub.length →
      charsPref (sub.drop k) b = false) :
    charsPref sub (a ++ b) = charsPref sub a := by
  by_cases hlen : sub.length ≤ a.length
  · exact charsPref_extend_eq sub a b hlen
  · rw [show charsPref sub a = false from charsPref_false_of_short (by omega)]
    cases hp : charsPref sub (a ++ b) with
    | false => rfl
    | true =>
      rcases charsPref_split a sub b hp with h2 | ⟨sub2, heq, h3⟩
      · rw [charsPref_false_of_short (by omega)] at h2
        exact absurd h2 (by simp)
      · exfalso
        have hd : sub.drop a.length = sub2 := by rw [heq, List.drop_left]
        have hlen2 : a.length < sub.length := by
          rw [heq]
          have := List.length_pos.2 (show sub2 ≠ [] from ?_)
          · simp
            omega
          · intro h0
            rw [h0] at heq
            rw [heq] at hlen
            simp at hlen
        have := hspan a.length (List.length_pos.2 hne) hlen2
        rw [hd, h3] at this
        exact absurd this (by simp)

theorem countOcc_append_nl {sub : List Char} (hsub : sub ≠ [])
    (hnl : '\n' ∉ sub) :
    ∀ (a b : List Char), a.getLast? = some '\n' →
      countOcc sub (a ++ b) = countOcc sub a + countOcc sub b := by
  intro a
  induction a with
  | nil => intro b h; simp at h
  | cons c t ih =>
    intro b hend
    rw [List.cons_append]
    rw [show countOcc sub (c :: (t ++ b)) =
      (if charsPref sub (c :: (t ++ b)) then 1 else 0) +
        countOcc sub (t ++ b) from rfl]
    rw [show countOcc sub (c :: t) =
      (if charsPref sub (c :: t) then 1 else 0) + countOcc sub t from rfl]
    rw [show charsPref sub (c :: (t ++ b)) = charsPref sub (c :: t) from
      pref_boundary_nl (c :: t) b hnl hend]
    cases t with
    | nil =>
      rw [List.nil_append, countOcc_nil hsub]
      omega
    | cons d t' =>
      have hend' : (d :: t').getLast? = some '\n' := by
        rw [List.getLast?_cons_cons] at hend
        exact hend
      rw [ih b hend']
      omega

theorem countOcc_append_nospan {sub : List Char} (hsub : sub ≠ [])
    (b : List Char)
    (hspan : ∀ k, 0 < k → k < sub.length →
      charsPref (sub.drop k) b = false) :
    ∀ (a : List Char),
      countOcc sub (a ++ b) = countOcc sub a + countOcc sub b := by
  intro a
  induction a with
  | nil =>
    rw [List.nil_append, countOcc_nil hsub]
    omega
  | cons c t ih =>
    rw [List.cons_append]
    rw [show countOcc sub (c :: (t ++ b)) =
      (if charsPref sub (c :: (t ++ b)) then 1 else 0) +
        countOcc sub (t ++ b) from rfl]
    rw [show countOcc sub (c :: t) =
      (if charsPref sub (c :: t) then 1 else 0) + countOcc sub t from rfl]
    rw [show charsPref sub (c :: (t ++ b)) = charsPref sub (c :: t) from
      pref_boundary_nospan (c :: t) b (by simp) hspan]
    rw [ih]
    omega

theorem commentLine_ends_nl (ts : String) :
    (commentLine ts).toList.getLast? = some '\n' := by
  rw [commentLine, toList_append,
    List.getLast?_append_of_ne_nil _ (by decide)]
  decide

set_option maxRecDepth 40000 in
/-- C7 counterexample: the output FILE content can contain a second
root tag.  The post-`>` tail of the one-line feed line
`<tv><channel id="A">x</tv>` is yielded unchecked by
`iter_xmltv_inner_lines`, so the kept block carries a literal `</tv>`
into the published content (two root closing tags); likewise an in-tv
content line `see <tv series>` puts a second `<tv` into the content. -/
theorem C7_counterexample :
    countOccStr "</tv>" (pyJoin (mergedChunks {"A"}
      [["<tv><channel id=\"A\">x</tv>\n", "</channel>\n", "</tv>\n"]]
      "T")) = 2 ∧
    countOccStr "<tv" (pyJoin (mergedChunks {"A"}
      [["<tv>\n", "<channel id=\"A\">\n", "see <tv series>\n",
        "</channel>\n", "</tv>\n"]] "T")) = 2 := by
  decide

set_option maxRecDepth 40000 in
/-- C7 amended: the output file's content is exactly the comment line,
the XML declaration, the root opening tag line, the concatenated
filtered block texts and the root closing tag line, in that order; and
provided neither the timestamp comment nor the filtered block texts
contain an occurrence of `<tv` or `</tv>` (feed content can inject such
occurrences into kept blocks, which the counterexample exploits), the
content contains exactly one occurrence of the root opening marker and
exactly one of the root closing tag, the opening before all block text
and the closing after it. -/
theorem C7_root_structure (allowed : Finset String)
    (feeds : List (List String)) (ts : String)
    (hc1 : countOccStr "<tv" (commentLine ts) = 0)
    (hc2 : countOccStr "</tv>" (commentLine ts) = 0)
    (hB1 : countOccStr "<tv"
      (pyJoin (scanChunks allowed ((feeds.map innerLines).flatten))) = 0)
    (hB2 : countOccStr "</tv>"
      (pyJoin (scanChunks allowed ((feeds.map innerLines).flatten))) = 0) :
    pyJoin (mergedChunks allowed feeds ts) =
      commentLine ts ++ xmlDeclLine ++ tvOpenLine ++
        pyJoin (scanChunks allowed ((feeds.map innerLines).flatten)) ++
        tvCloseLine ∧
    countOccStr "<tv" (pyJoin (mergedChunks allowed feeds ts)) = 1 ∧
    countOccStr "</tv>" (pyJoin (mergedChunks allowed feeds ts)) = 1 ∧
    countOccStr "<tv" (commentLine ts ++ xmlDeclLine) = 0 ∧
    countOccStr "</tv>" (commentLine ts ++ xmlDeclLine ++ tvOpenLine ++
      pyJoin (scanChunks allowed ((feeds.map innerLines).flatten))) = 0 := by
  rw [countOccStr] at hc1 hc2 hB1 hB2
  have hcontent : pyJoin (mergedChunks allowed feeds ts) =
      commentLine ts ++ xmlDeclLine ++ tvOpenLine ++
        pyJoin (scanChunks allowed ((feeds.map innerLines).flatten)) ++
        tvCloseLine := by
    rw [mergedChunks, pyJoin_append, pyJoin_append]
    simp [pyJoin, String.append_empty, String.append_assoc]
  have hlist : (pyJoin (mergedChunks allowed feeds ts)).toList =
      (commentLine ts).toList ++ (xmlDeclLine.toList ++ (tvOpenLine.toList ++
        ((pyJoin (scanChunks allowed
          ((feeds.map innerLines).flatten))).toList ++
          tvCloseLine.toList))) := by
    rw [hcontent]
    simp [toList_append, List.append_assoc]
  have hspan1 : ∀ k, 0 < k → k < ("<tv".toList).length →
      charsPref ("<tv".toList.drop k) tvCloseLine.toList = false := by
    intro k h1 h2
    have h3 : k < 3 := by simpa using h2
    interval_cases k <;> decide
  have hspan2 : ∀ k, 0 < k → k < ("</tv>".toList).length →
      charsPref ("</tv>".toList.drop k) tvCloseLine.toList = false := by
    intro k h1 h2
    have h3 : k < 5 := by simpa using h2
    interval_cases k <;> decide
  refine ⟨hcontent, ?_, ?_, ?_, ?_⟩
  · rw [countOccStr, hlist,
      countOcc_append_nl (by decide) (by decide) _ _ (commentLine_ends_nl ts),
      countOcc_append_nl (by decide) (by decide) _ _ (by decide),
      countOcc_append_nl (by decide) (by decide) _ _ (by decide),
      countOcc_append_nospan (by decide) _ hspan1, hc1, hB1]
    rw [show countOcc "<tv".toList xmlDeclLine.toList = 0 by decide,
      show countOcc "<tv".toList tvOpenLine.toList = 1 by decide,
      show countOcc "<tv".toList tvCloseLine.toList = 0 by decide]
  · rw [countOccStr, hlist,
      countOcc_append_nl (by decide) (by decide) _ _ (commentLine_ends_nl ts),
      countOcc_append_nl (by decide) (by decide) _ _ (by decide),
      countOcc_append_nl (by decide) (by decide) _ _ (by decide),
      countOcc_append_nospan (by decide) _ hspan2, hc2, hB2]
    rw [show countOcc "</tv>".toList xmlDeclLine.toList = 0 by decide,
      show countOcc "</tv>".toList tvOpenLine.toList = 0 by decide,
      show countOcc "</tv>".toList tvCloseLine.toList = 1 by decide]
  · rw [countOccStr, toList_append,
      countOcc_append_nl (by decide) (by decide) _ _ (commentLine_ends_nl ts),
      hc1, show countOcc "<tv".toList xmlDeclLine.toList = 0 by decide]
  · rw [countOccStr]
    rw [show (commentLine ts ++ xmlDeclLine ++ tvOpenLine ++
        pyJoin (scanChunks allowed ((feeds.map innerLines).flatten))).toList =
      (commentLine ts).toList ++ (xmlDeclLine.toList ++ (tvOpenLine.toList ++
        (pyJoin (scanChunks allowed
          ((feeds.map innerLines).flatten))).toList)) by
        simp [toList_append, List.append_assoc]]
    rw [countOcc_append_nl (by decide) (by decide) _ _ (commentLine_ends_nl ts),
      countOcc_append_nl (by decide) (by decide) _ _ (by decide),
      countOcc_append_nl (by decide) (by decide) _ _ (by decide),
      hc2, hB2,
      show countOcc "</tv>".toList xmlDeclLine.toList = 0 by decide,
      show countOcc "</tv>".toList tvOpenLine.toList = 0 by decide]

set_option maxRecDepth 40000 in
theorem C7_root_structure_witness :
    countOccStr "<tv" (pyJoin (mergedChunks {"A"} [tinyFeed] "T")) = 1 ∧
    countOccStr "</tv>" (pyJoin (mergedChunks {"A"} [tinyFeed] "T")) = 1 :=
  ⟨(C7_root_structure {"A"} [tinyFeed] "T" (by decide) (by decide)
      (by decide) (by decide)).2.1,
    (C7_root_structure {"A"} [tinyFeed] "T" (by decide) (by decide)
      (by decide) (by decide)).2.2.1⟩
